import Mathlib

/-!
Verification of the pytf filter-bank core against its natural-language
specification.

The development shallowly embeds the two source modules:

* `src/pytf/utilities/parallel.py` — the `Parallel` work dispatcher
  (greedy slice partition, epoch-counter protocol, teardown) and the
  `ParallelDummy` single-worker wrapper;
* `src/pytf/filter/filterbank.py` — the `FilterBank` index construction
  (`_get_indices_for_frequency_shifts`) and the band projector
  (`_fft_procs`).

Modelling conventions:

* Python/numpy floating point arithmetic is modelled by exact rationals
  (`ℚ`); `int(...)` / `np.int32` casts truncate toward zero and are
  modelled by `ratTrunc`.
* numpy arrays are modelled as total functions out of `ℕ` (with explicit
  extents carried alongside), or as `List (List ℤ)` for the constructed
  index arrays.  numpy's negative-index wrapping of fancy indices is
  modelled by `npWrap`; an access outside `[-n, n)` raises `IndexError`
  in numpy and is given the junk value `0` here — every theorem carries
  in-range hypotheses so the junk value is never exercised.
* The inverse FFTs (`irfft` / `ifft` from pyfftw, external collaborators
  per the spec) are abstract row-wise transforms passed as parameters.
* Complex sample values are modelled by an arbitrary commutative ring;
  witnesses instantiate it with `ℤ`.
-/

set_option autoImplicit false
set_option linter.unusedSectionVars false

namespace Pytf

/-- Floor of a rational, computed from its reduced fraction (so that the
kernel can evaluate it on concrete inputs). -/
def ratFloor (q : ℚ) : ℤ := q.num / (q.den : ℤ)

theorem ratFloor_eq_floor (q : ℚ) : ratFloor q = ⌊q⌋ := Rat.floor_def.symm

/-- Ceiling of a rational. -/
def ratCeil (q : ℚ) : ℤ := -(ratFloor (-q))

theorem ratCeil_eq_ceil (q : ℚ) : ratCeil q = ⌈q⌉ := by
  unfold ratCeil
  rw [ratFloor_eq_floor, Int.floor_neg, neg_neg]

/-- Truncation toward zero of a rational, as performed by Python `int(...)`
and by numpy `astype(np.int32)` casts (for the magnitudes arising here). -/
def ratTrunc (q : ℚ) : ℤ := if 0 ≤ q then ratFloor q else -(ratFloor (-q))

theorem ratTrunc_eq_floor {q : ℚ} (h : 0 ≤ q) : ratTrunc q = ⌊q⌋ := by
  unfold ratTrunc
  rw [if_pos h, ratFloor_eq_floor]

/-- Ceiling division on naturals; embeds `int(np.ceil(a / b))` from
`Parallel.__init__` (the quotient of the nonnegative ints involved is exact
in double precision). -/
def ceilDiv (a b : ℕ) : ℕ := (a + b - 1) / b

namespace Parallel

/-- Start offset of worker `p`'s slice of the parallel axis, embedding the
greedy loop of `Parallel.__init__`: at step `p` the remaining
`L - start` entries are divided by the remaining `N - p` workers,
rounding up. -/
def sliceStart (L N : ℕ) : ℕ → ℕ
  | 0 => 0
  | p + 1 => sliceStart L N p + ceilDiv (L - sliceStart L N p) (N - p)

/-- Length of worker `p`'s slice (`slice_i` in `Parallel.__init__`). -/
def sliceLen (L N p : ℕ) : ℕ := ceilDiv (L - sliceStart L N p) (N - p)

theorem sliceStart_succ (L N p : ℕ) :
    sliceStart L N (p + 1) = sliceStart L N p + sliceLen L N p := rfl

theorem ceilDiv_le_self (r m : ℕ) : ceilDiv r m ≤ r := by
  unfold ceilDiv
  rcases Nat.eq_zero_or_pos m with hm | hm
  · simp [hm]
  · have hr : r ≤ m * r := Nat.le_mul_of_pos_left r hm
    have h1 : r + m - 1 ≤ m * r + (m - 1) := by omega
    have h2 : (m - 1) / m = 0 := Nat.div_eq_of_lt (by omega)
    calc (r + m - 1) / m ≤ (m * r + (m - 1)) / m := Nat.div_le_div_right h1
      _ = r + (m - 1) / m := Nat.mul_add_div hm r (m - 1)
      _ = r := by rw [h2, Nat.add_zero]

theorem ceilDiv_one (a : ℕ) : ceilDiv a 1 = a := by simp [ceilDiv]

theorem sliceStart_le (L N : ℕ) : ∀ p, sliceStart L N p ≤ L := by
  intro p
  induction p with
  | zero => exact Nat.zero_le _
  | succ p ih =>
      have h := ceilDiv_le_self (L - sliceStart L N p) (N - p)
      show sliceStart L N p + ceilDiv (L - sliceStart L N p) (N - p) ≤ L
      omega

theorem sliceStart_mono (L N : ℕ) {p q : ℕ} (h : p ≤ q) :
    sliceStart L N p ≤ sliceStart L N q := by
  induction h with
  | refl => exact le_refl _
  | step _ ih =>
      refine le_trans ih ?_
      rw [sliceStart_succ]
      exact Nat.le_add_right _ _

theorem sliceStart_last (L N : ℕ) (hN : 1 ≤ N) : sliceStart L N N = L := by
  obtain ⟨M, rfl⟩ : ∃ M, N = M + 1 := ⟨N - 1, by omega⟩
  rw [sliceStart_succ]
  unfold sliceLen
  have hsub : M + 1 - M = 1 := by omega
  rw [hsub, ceilDiv_one]
  have := sliceStart_le L (M + 1) M
  omega

/-- `ceilDiv` in terms of quotient and remainder: it is the quotient, plus
one when the remainder is nonzero. -/
theorem ceilDiv_eq (r m : ℕ) (hm : 1 ≤ m) :
    ceilDiv r m = r / m + (if r % m = 0 then 0 else 1) := by
  unfold ceilDiv
  have hdm := Nat.div_add_mod r m
  have hrem : r % m < m := Nat.mod_lt _ (by omega)
  by_cases hz : r % m = 0
  · have h1 : r + m - 1 = m * (r / m) + (m - 1) := by omega
    have h2 : (m - 1) / m = 0 := Nat.div_eq_of_lt (by omega)
    rw [h1, Nat.mul_add_div hm, h2, hz]
    simp
  · have h1 : r + m - 1 = m * (r / m + 1) + (r % m - 1) := by
      have h2 : m * (r / m + 1) = m * (r / m) + m := by ring
      omega
    have h3 : (r % m - 1) / m = 0 := Nat.div_eq_of_lt (by omega)
    rw [h1, Nat.mul_add_div hm, h3, if_neg hz]

theorem div_le_ceilDiv (r m : ℕ) : r / m ≤ ceilDiv r m := by
  rcases Nat.eq_zero_or_pos m with hm | hm
  · simp [hm, ceilDiv]
  · rw [ceilDiv_eq r m hm]
    omega

/-- One greedy step keeps slice lengths inside the floor/ceiling envelope:
after removing a ceiling-sized slice from `r` items over `m` workers, the
remaining envelope over `m - 1` workers is nested inside the old one. -/
theorem envelope_step (r m : ℕ) (hm : 2 ≤ m) :
    r / m ≤ (r - ceilDiv r m) / (m - 1) ∧
    ceilDiv (r - ceilDiv r m) (m - 1) ≤ ceilDiv r m := by
  have hm1 : 1 ≤ m := by omega
  have hm1' : 1 ≤ m - 1 := by omega
  set a := r / m with ha
  set s := r % m with hs
  have hdm : m * a + s = r := by rw [ha, hs]; exact Nat.div_add_mod r m
  have hslt : s < m := Nat.mod_lt _ (by omega)
  have hma : (m - 1) * a + a = m * a := by
    have h2 : (m - 1) * a + a = (m - 1 + 1) * a := by ring
    rw [h2]
    congr 1
    omega
  have hmpos : 0 < m - 1 := by omega
  by_cases hz : s = 0
  · have hceil : ceilDiv r m = a := by rw [ceilDiv_eq r m hm1, ← hs, hz]; simp
    have hr' : r - ceilDiv r m = (m - 1) * a := by rw [hceil]; omega
    constructor
    · rw [hr', Nat.mul_div_cancel_left a hmpos]
    · rw [hr', hceil, ceilDiv_eq _ _ hm1', Nat.mul_div_cancel_left a hmpos,
        Nat.mul_mod_right]
      simp
  · have hceil : ceilDiv r m = a + 1 := by rw [ceilDiv_eq r m hm1, ← hs, if_neg hz]
    have hr' : r - ceilDiv r m = (m - 1) * a + (s - 1) := by rw [hceil]; omega
    have hs1 : s - 1 < m - 1 := by omega
    have hdiv : ((m - 1) * a + (s - 1)) / (m - 1) = a := by
      rw [Nat.mul_add_div hmpos, Nat.div_eq_of_lt hs1, Nat.add_zero]
    have hmod : ((m - 1) * a + (s - 1)) % (m - 1) = s - 1 := by
      rw [Nat.mul_add_mod, Nat.mod_eq_of_lt hs1]
    constructor
    · rw [hr', hdiv]
    · rw [hr', hceil, ceilDiv_eq _ _ hm1', hdiv, hmod]
      split_ifs <;> omega

/-- The remaining work after slice `p` is the old remaining work minus the
slice just taken. -/
theorem remaining_succ (L N p : ℕ) :
    L - sliceStart L N (p + 1) =
      (L - sliceStart L N p) - ceilDiv (L - sliceStart L N p) (N - p) := by
  rw [sliceStart_succ]
  unfold sliceLen
  have h1 := sliceStart_le L N p
  omega

/-- Every later slice length lies inside the floor/ceiling envelope of the
remaining work at step `p`. -/
theorem sliceLen_envelope (L N : ℕ) :
    ∀ d p, p + d < N →
      (L - sliceStart L N p) / (N - p) ≤ sliceLen L N (p + d) ∧
      sliceLen L N (p + d) ≤ ceilDiv (L - sliceStart L N p) (N - p) := by
  intro d
  induction d with
  | zero =>
      intro p hp
      constructor
      · exact div_le_ceilDiv _ _
      · exact le_refl _
  | succ d ih =>
      intro p hp
      have hrec := ih (p + 1) (by omega)
      have hstep := envelope_step (L - sliceStart L N p) (N - p) (by omega)
      rw [remaining_succ] at hrec
      have hNp : N - (p + 1) = N - p - 1 := by omega
      rw [hNp] at hrec
      have hq : p + 1 + d = p + (d + 1) := by omega
      rw [hq] at hrec
      exact ⟨le_trans hstep.1 hrec.1, le_trans hrec.2 hstep.2⟩

theorem sliceLen_bounds (L N : ℕ) {p : ℕ} (hp : p < N) :
    L / N ≤ sliceLen L N p ∧ sliceLen L N p ≤ ceilDiv L N := by
  have := sliceLen_envelope L N p 0 (by omega)
  simpa [sliceStart] using this

theorem ceilDiv_le_div_succ (L N : ℕ) (hN : 1 ≤ N) : ceilDiv L N ≤ L / N + 1 := by
  rw [ceilDiv_eq L N hN]
  split_ifs <;> omega

/-- Downward search for the slice containing a point: starting from any
offset `n` whose slice start is at or below `x`, some later slice contains
`x`. -/
theorem exists_slice_from (L N x : ℕ) (hN : 1 ≤ N) (hx : x < L) :
    ∀ n, n ≤ N → sliceStart L N n ≤ x →
      ∃ p, p < N ∧ sliceStart L N p ≤ x ∧ x < sliceStart L N p + sliceLen L N p := by
  intro n hn hs
  have hnN : n < N := by
    rcases Nat.lt_or_ge n N with h | h
    · exact h
    · exfalso
      have heq : n = N := by omega
      rw [heq, sliceStart_last L N hN] at hs
      omega
  by_cases hend : x < sliceStart L N n + sliceLen L N n
  · exact ⟨n, hnN, hs, hend⟩
  · push_neg at hend
    have hs' : sliceStart L N (n + 1) ≤ x := by rw [sliceStart_succ]; omega
    exact exists_slice_from L N x hN hx (n + 1) (by omega) hs'
termination_by n => N - n

/-- Each point of the axis lies in exactly one slice. -/
theorem slices_cover (L N : ℕ) (hN : 1 ≤ N) {x : ℕ} (hx : x < L) :
    ∃! p, p < N ∧ sliceStart L N p ≤ x ∧ x < sliceStart L N p + sliceLen L N p := by
  obtain ⟨p, hplt, hpl, hpu⟩ :=
    exists_slice_from L N x hN hx 0 (Nat.zero_le N) (Nat.zero_le x)
  refine ⟨p, ⟨hplt, hpl, hpu⟩, ?_⟩
  rintro q ⟨hqN, hql, hqu⟩
  by_contra hne
  rcases Nat.lt_or_ge q p with hlt | hge
  · have h1 : sliceStart L N (q + 1) ≤ sliceStart L N p := sliceStart_mono L N (by omega)
    rw [sliceStart_succ] at h1
    omega
  · have hqp : p < q := by omega
    have h1 : sliceStart L N (p + 1) ≤ sliceStart L N q := sliceStart_mono L N (by omega)
    rw [sliceStart_succ] at h1
    omega

/-- C4 helper: any two slice lengths differ by at most one. -/
theorem sliceLen_diff_le_one (L N : ℕ) (hN : 1 ≤ N) {p q : ℕ}
    (hp : p < N) (hq : q < N) : sliceLen L N p ≤ sliceLen L N q + 1 := by
  have hb1 := (sliceLen_bounds L N hp).2
  have hb2 := (sliceLen_bounds L N hq).1
  have hb3 := ceilDiv_le_div_succ L N hN
  omega

end Parallel

/-- C4: for every axis length `L ≥ 0` and worker count `N ≥ 1`, the `N`
slices computed greedily in `Parallel.__init__` with slice size
`ceil(remaining / remaining_workers)` are contiguous (each starts where the
previous one ends), start at `0`, exhaust `[0, L)` (the final end is `L` and
every point lies in exactly one slice), and their lengths differ by at most
one. -/
theorem parallel_slices_partition (L N : ℕ) (hN : 1 ≤ N) :
    Parallel.sliceStart L N 0 = 0 ∧
    (∀ p, Parallel.sliceStart L N (p + 1) =
        Parallel.sliceStart L N p + Parallel.sliceLen L N p) ∧
    Parallel.sliceStart L N N = L ∧
    (∀ x, x < L → ∃! p, p < N ∧ Parallel.sliceStart L N p ≤ x ∧
        x < Parallel.sliceStart L N p + Parallel.sliceLen L N p) ∧
    (∀ p q, p < N → q < N →
        Parallel.sliceLen L N p ≤ Parallel.sliceLen L N q + 1) :=
  ⟨rfl, fun p => Parallel.sliceStart_succ L N p, Parallel.sliceStart_last L N hN,
    fun _ hx => Parallel.slices_cover L N hN hx,
    fun _ _ hp hq => Parallel.sliceLen_diff_le_one L N hN hp hq⟩

/-- Witness for C4 at `L = 5`, `N = 2`: the two slices are `[0, 3)` and
`[3, 5)`; they end at `5` and their lengths differ by at most one. -/
theorem parallel_slices_partition_witness :
    Parallel.sliceStart 5 2 2 = 5 ∧ Parallel.sliceLen 5 2 0 ≤ Parallel.sliceLen 5 2 1 + 1 :=
  ⟨(parallel_slices_partition 5 2 (by norm_num)).2.2.1,
    (parallel_slices_partition 5 2 (by norm_num)).2.2.2.2 0 1 (by norm_num) (by norm_num)⟩

/-!
## The epoch-counter protocol of `Parallel`

`Parallel.result` writes the four input buffers, increments the input
counter `in_counter` (`I`), then sleeps while any worker's `out_counter`
(`O[w]`) is below `I`, returning `self.out` once all have caught up.
Each worker (`Parallel.process`) sleeps while `O[w] >= I`, then applies the
projector to its slice, records its output, and increments `O[w]`.
The state machine below embeds exactly these guarded actions (`kill` is
modelled separately; the claim's step relation is submit/poll/compute).
`written w` records the epoch whose data worker `w` last wrote into its
output slice, so absence of tearing is expressible.
-/

/-- State of the dispatcher protocol: input counter, per-worker output
counters, whether the caller is inside the poll loop of `result`, and the
epoch of the data each worker last wrote to its output slice. -/
structure DState (Nw : ℕ) where
  inCtr : ℤ
  outCtr : Fin Nw → ℕ
  waiting : Bool
  written : Fin Nw → ℤ

/-- Initial state: counters at zero (`Counter(initval=0)`), caller idle,
output buffer holding epoch-0 (initial) contents. -/
def dInit (Nw : ℕ) : DState Nw :=
  ⟨0, fun _ => 0, false, fun _ => 0⟩

/-- One step of the protocol of `Parallel.result` / `Parallel.process`:

* `submit` — the caller writes the input buffers and increments `I`
  (`self.in_counter.increment()`), entering the poll loop;
* `retire` — the poll loop `while np.any(out_counter < in_counter)` exits,
  returning `self.out` to the caller, only when every `O[w] ≥ I`;
* `work` — worker `w`, seeing `I ≥ 0` and `O[w] < I`, writes its output
  slice from the current inputs and increments `O[w]`. -/
inductive DStep (Nw : ℕ) : DState Nw → DState Nw → Prop
  | submit {s s' : DState Nw} (hw : s.waiting = false)
      (h1 : s'.inCtr = s.inCtr + 1) (h2 : s'.outCtr = s.outCtr)
      (h3 : s'.waiting = true) (h4 : s'.written = s.written) : DStep Nw s s'
  | retire {s s' : DState Nw} (hw : s.waiting = true)
      (hall : ∀ w, s.inCtr ≤ (s.outCtr w : ℤ))
      (h1 : s'.inCtr = s.inCtr) (h2 : s'.outCtr = s.outCtr)
      (h3 : s'.waiting = false) (h4 : s'.written = s.written) : DStep Nw s s'
  | work {s s' : DState Nw} (w : Fin Nw) (hge : 0 ≤ s.inCtr)
      (hlt : (s.outCtr w : ℤ) < s.inCtr)
      (h1 : s'.inCtr = s.inCtr)
      (h2 : s'.outCtr = Function.update s.outCtr w (s.outCtr w + 1))
      (h3 : s'.waiting = s.waiting)
      (h4 : s'.written = Function.update s.written w s.inCtr) : DStep Nw s s'

/-- Reachability from the initial state under `DStep`. -/
inductive DReach (Nw : ℕ) : DState Nw → Prop
  | init : DReach Nw (dInit Nw)
  | step {s s' : DState Nw} : DReach Nw s → DStep Nw s s' → DReach Nw s'

/-- The protocol invariant: the input counter is nonnegative, every output
counter is at most the input counter, the input counter is positive while
the caller polls, and a worker whose counter has caught up has written the
current epoch's data (or has never worked while no epoch was submitted). -/
def DInv {Nw : ℕ} (s : DState Nw) : Prop :=
  0 ≤ s.inCtr ∧
  (∀ w, (s.outCtr w : ℤ) ≤ s.inCtr) ∧
  (s.waiting = true → 1 ≤ s.inCtr) ∧
  (∀ w, (s.outCtr w : ℤ) = s.inCtr → 1 ≤ s.inCtr → s.written w = s.inCtr)

theorem dInv_init (Nw : ℕ) : DInv (dInit Nw) := by
  refine ⟨le_refl 0, fun w => le_refl 0, by simp [dInit], fun w _ h => ?_⟩
  simp [dInit] at h

theorem dInv_step {Nw : ℕ} {s s' : DState Nw} (hs : DInv s) (h : DStep Nw s s') :
    DInv s' := by
  obtain ⟨h0, h1, h2, h3⟩ := hs
  cases h with
  | submit hw h1' h2' h3' h4' =>
      refine ⟨?_, fun w => ?_, fun _ => ?_, fun w hcw _ => ?_⟩
      · omega
      · rw [h1', h2']
        have := h1 w
        omega
      · omega
      · exfalso
        rw [h1', h2'] at hcw
        have := h1 w
        omega
  | retire hw hall h1' h2' h3' h4' =>
      refine ⟨?_, fun w => ?_, fun hcon => ?_, fun w hcw hpos => ?_⟩
      · omega
      · rw [h1', h2']
        exact h1 w
      · rw [h3'] at hcon
        cases hcon
      · rw [h1', h2'] at hcw
        rw [h1'] at hpos
        rw [h4', h1']
        exact h3 w hcw hpos
  | work w hge hlt h1' h2' h3' h4' =>
      refine ⟨?_, fun v => ?_, fun hcon => ?_, fun v hcv hpos => ?_⟩
      · omega
      · rw [h1', h2']
        by_cases hvw : v = w
        · subst hvw
          rw [Function.update_same]
          push_cast
          omega
        · rw [Function.update_noteq hvw]
          exact h1 v
      · rw [h3'] at hcon
        rw [h1']
        exact h2 hcon
      · rw [h1', h2'] at hcv
        rw [h1'] at hpos
        rw [h4', h1']
        by_cases hvw : v = w
        · subst hvw
          rw [Function.update_same]
        · rw [Function.update_noteq hvw] at hcv ⊢
          exact h3 v hcv hpos

theorem dInv_reach {Nw : ℕ} {s : DState Nw} (h : DReach Nw s) : DInv s := by
  induction h with
  | init => exact dInv_init Nw
  | step _ hstep ih => exact dInv_step ih hstep

/-- C5: in every reachable state of the dispatcher's step relation, every
worker counter is at most the input counter; worker counters never decrease
across any step; and the caller's poll loop exits (`result` returns)
only when every worker counter has reached the submitted epoch, at which
point every worker's output slice holds data of exactly that epoch — the
returned buffer is never a torn mix of two epochs. -/
theorem parallel_protocol_invariant {Nw : ℕ} (s : DState Nw)
    (hreach : DReach Nw s) :
    (∀ w, (s.outCtr w : ℤ) ≤ s.inCtr) ∧
    (∀ s', DStep Nw s s' → ∀ w, s.outCtr w ≤ s'.outCtr w) ∧
    (∀ s', DStep Nw s s' → s.waiting = true → s'.waiting = false →
      (∀ w, s.inCtr ≤ (s.outCtr w : ℤ)) ∧ (∀ w, s.written w = s.inCtr)) := by
  obtain ⟨h0, h1, h2, h3⟩ := dInv_reach hreach
  refine ⟨h1, ?_, ?_⟩
  · intro s' hstep w
    cases hstep with
    | submit hw h1' h2' h3' h4' => rw [h2']
    | retire hw hall h1' h2' h3' h4' => rw [h2']
    | work v hge hlt h1' h2' h3' h4' =>
        rw [h2']
        by_cases hvw : w = v
        · subst hvw
          rw [Function.update_same]
          omega
        · rw [Function.update_noteq hvw]
  · intro s' hstep hw hw'
    cases hstep with
    | submit hwf h1' h2' h3' h4' => rw [hwf] at hw; cases hw
    | retire hwt hall h1' h2' h3' h4' =>
        refine ⟨hall, fun w => ?_⟩
        have ha := h1 w
        have hb := hall w
        exact h3 w (by omega) (h2 hw)
    | work v hge hlt h1' h2' h3' h4' =>
        rw [h3'] at hw'
        rw [hw] at hw'
        cases hw'

/-- Witness for C5 at the initial one-worker state: the invariant holds
there; in particular the single worker's counter is at most the input
counter. -/
theorem parallel_protocol_invariant_witness :
    ((dInit 1).outCtr ⟨0, Nat.zero_lt_one⟩ : ℤ) ≤ (dInit 1).inCtr :=
  (parallel_protocol_invariant (dInit 1) (DReach.init)).1 ⟨0, Nat.zero_lt_one⟩

/-!
## Teardown (`Parallel.kill`, `ParallelDummy.kill`, `FilterBank.kill`)

`Parallel.kill` reads `self.in_counter.val.value` inside a
`try/except (AttributeError, AssertionError)` block — the read raises
`AttributeError` when `__init__` took the `nprocs <= 1` path and never
created the counter attributes, and the exception is swallowed.  Otherwise
it stores the `-1` sentinel and joins every worker; each worker's outer
loop `while in_counter.value() >= 0` then fails its guard and the process
exits, so `join` returns.  `FilterBank.kill` merely delegates to the
wrapped dispatcher (`Parallel` or `ParallelDummy`).
-/

/-- Observable teardown state of a `Parallel` object: the input counter if
the `nprocs > 1` path created it (`none` models the missing attribute), and
the number of live worker processes. -/
structure ParallelSt where
  inCtr? : Option ℤ
  liveWorkers : ℕ

/-- Python exceptions relevant to `kill`. -/
inductive PyExc
  | attributeError
  | assertionError

/-- State produced by `Parallel.__init__`: counters and `nprocs` daemon
workers when `nprocs > 1`, otherwise no counter attribute and no workers. -/
def parallelInit (nprocs : ℕ) : ParallelSt :=
  if 1 < nprocs then ⟨some 0, nprocs⟩ else ⟨none, 0⟩

/-- A `Parallel` state is well formed when the counter attribute and the
worker processes were created together (as `__init__` does): no counter
attribute means no workers were ever spawned. -/
def ParallelSt.wf (s : ParallelSt) : Prop :=
  s.inCtr? = none → s.liveWorkers = 0

/-- Guard of the worker's outer loop, `while in_counter.value() >= 0`
in `Parallel.process`. -/
def workerLoopGuard (i : ℤ) : Bool := decide (0 ≤ i)

/-- `Parallel.kill`: read the counter (`AttributeError` if absent, caught),
store the `-1` sentinel, and join every worker — each worker's loop guard
fails on `-1`, the process exits, and `join` returns, leaving no live
worker.  The surrounding `try/except` means the call never raises. -/
def parallelKill (s : ParallelSt) : Except PyExc ParallelSt :=
  match s.inCtr? with
  | none => Except.ok s
  | some _ => Except.ok ⟨some (-1), 0⟩

/-- `ParallelDummy.kill`: prints when `opt` is given, then `del self`;
no worker was ever spawned and nothing can raise. -/
def parallelDummyKill : Unit → Except PyExc Unit :=
  fun u => Except.ok u

/-- The dispatcher owned by a `FilterBank`: a `ParallelDummy` (single
worker) or a `Parallel` (multi worker). -/
inductive FBDispatcher
  | dummy : Unit → FBDispatcher
  | par : ParallelSt → FBDispatcher

/-- `FilterBank.kill` delegates to `self._pfunc.kill(opt=opt)`. -/
def filterBankKill : FBDispatcher → Except PyExc FBDispatcher
  | FBDispatcher.dummy u => (parallelDummyKill u).map FBDispatcher.dummy
  | FBDispatcher.par s => (parallelKill s).map FBDispatcher.par

/-- Live worker processes owned by a dispatcher. -/
def FBDispatcher.live : FBDispatcher → ℕ
  | FBDispatcher.dummy _ => 0
  | FBDispatcher.par s => s.liveWorkers

/-- Well-formedness of a dispatcher (see `ParallelSt.wf`). -/
def FBDispatcher.wf : FBDispatcher → Prop
  | FBDispatcher.dummy _ => True
  | FBDispatcher.par s => s.wf

/-- C8: on any well-formed dispatcher — multi-worker, single-worker, with
workers already exited, or never spawned — calling teardown twice in a row
never raises, and after each call no worker process remains live (the
worker loop guard `in_counter.value() >= 0` fails on the `-1` sentinel, so
`join` returns with every process dead). -/
theorem kill_twice_idempotent (d : FBDispatcher) (hwf : d.wf) :
    ∃ d₁ d₂, filterBankKill d = Except.ok d₁ ∧ filterBankKill d₁ = Except.ok d₂ ∧
      d₁.live = 0 ∧ d₂.live = 0 ∧ workerLoopGuard (-1) = false := by
  cases d with
  | dummy u =>
      exact ⟨FBDispatcher.dummy u, FBDispatcher.dummy u, rfl, rfl, rfl, rfl, rfl⟩
  | par s =>
      cases hs : s.inCtr? with
      | none =>
          have hl : s.liveWorkers = 0 := hwf hs
          refine ⟨FBDispatcher.par s, FBDispatcher.par s, ?_, ?_, hl, hl, rfl⟩
          · simp [filterBankKill, parallelKill, hs, Except.map]
          · simp [filterBankKill, parallelKill, hs, Except.map]
      | some i =>
          refine ⟨FBDispatcher.par ⟨some (-1), 0⟩, FBDispatcher.par ⟨some (-1), 0⟩,
            ?_, ?_, rfl, rfl, rfl⟩
          · simp [filterBankKill, parallelKill, hs, Except.map]
          · simp [filterBankKill, parallelKill, Except.map]

/-- Witness for C8 on a freshly constructed four-worker dispatcher. -/
theorem kill_twice_idempotent_witness :
    ∃ d₁ d₂, filterBankKill (FBDispatcher.par (parallelInit 4)) = Except.ok d₁ ∧
      filterBankKill d₁ = Except.ok d₂ ∧ d₁.live = 0 ∧ d₂.live = 0 ∧
      workerLoopGuard (-1) = false :=
  kill_twice_idempotent (FBDispatcher.par (parallelInit 4)) (by
    intro h
    simp [parallelInit] at h)

/-!
## The band projector `FilterBank._fft_procs`

The projector allocates a zero complex buffer
`X_ = zeros((nch, nwin, nfreqs, binsize_ // 2))` and performs the fancy
assignment `X_[:,:,idx2,idx1] = X[:,:,idx1] * filts[fidx]`: for row-major
pairs `(i, j)` with `i < nfreqs_rows`, `j < W`, the value
`X[c,w,idx1[i,j]] * filts[fidx[i,j]]` is written to buffer cell
`(idx2[i,j], idx1[i,j])` of the `(c, w)` plane.  When `dtype` is complex
(`hilbert=True`) all non-DC bins are then doubled.  In `'freq'` domain the
buffer itself is returned; in `'time'` domain the external inverse FFT
(abstracted as a row transform) is applied along the last axis of
`X_[slices_idx]`, the band-axis slice assigned to the caller.
-/

section Projector

variable {α : Type} [CommRing α]

/-- numpy index wrapping for fancy indices: a negative index counts from
the end of the axis. -/
def npWrap (n : ℕ) (i : ℤ) : ℤ := if i < 0 then i + n else i

/-- Read `v[i]` on an axis of extent `n` with numpy index semantics;
out-of-range accesses raise `IndexError` in numpy and evaluate to the junk
value `0` here (all theorems carry in-range hypotheses). -/
def npGet (n : ℕ) (v : ℕ → α) (i : ℤ) : α :=
  if 0 ≤ npWrap n i ∧ npWrap n i < (n : ℤ) then v (npWrap n i).toNat else 0

/-- One write of the fancy assignment into the `(band, bin)` plane:
`t = (band_index, bin_index, value)`. -/
def applyWrite (nb nk : ℕ) (B : ℕ → ℕ → α) (t : ℤ × ℤ × α) : ℕ → ℕ → α :=
  fun b k =>
    if npWrap nb t.1 = (b : ℤ) ∧ b < nb ∧ npWrap nk t.2.1 = (k : ℤ) ∧ k < nk
    then t.2.2 else B b k

/-- The row-major list of writes performed by
`X_[:,:,idx2,idx1] = V` for one `(c, w)` plane. -/
def bandWrites (nfr W : ℕ) (idx2 idx1 : ℕ → ℕ → ℤ) (V : ℕ → ℕ → α) :
    List (ℤ × ℤ × α) :=
  (List.range nfr).flatMap fun i =>
    (List.range W).map fun j => (idx2 i j, idx1 i j, V i j)

/-- Execute a write list on the zero-initialised plane. -/
def npScatter (nb nk : ℕ) (ws : List (ℤ × ℤ × α)) : ℕ → ℕ → α :=
  ws.foldl (applyWrite nb nk) fun _ _ => 0

/-- The gathered right-hand side `X[c,w,idx1] * filts[fidx]`. -/
def gatherMul (nsamp nfilt : ℕ) (Xrow filts : ℕ → α) (idx1 fidx : ℕ → ℕ → ℤ) :
    ℕ → ℕ → α :=
  fun i j => npGet nsamp Xrow (idx1 i j) * npGet nfilt filts (fidx i j)

/-- The complex buffer `X_` built by `_fft_procs` before any inverse FFT:
extent `nfrBuf = nfreqs` on the band axis and `half = binsize_ // 2` on the
bin axis; `nfr` rows of the index arrays are scattered. -/
def fftBuffer (nsamp nfilt nfrBuf half nfr W : ℕ) (X : ℕ → ℕ → ℕ → α)
    (idx1 idx2 fidx : ℕ → ℕ → ℤ) (filts : ℕ → α) : ℕ → ℕ → ℕ → ℕ → α :=
  fun c w => npScatter nfrBuf half
    (bandWrites nfr W idx2 idx1 (gatherMul nsamp nfilt (X c w) filts idx1 fidx))

/-- `X_[:,:,:,1:] *= 2` — the single-sideband doubling applied when the
output dtype is complex (`hilbert=True`). -/
def hilbertDouble (B : ℕ → ℕ → ℕ → ℕ → α) : ℕ → ℕ → ℕ → ℕ → α :=
  fun c w b k => if 1 ≤ k then 2 * B c w b k else B c w b k

/-- The `domain` flag of the filter bank. -/
inductive FBDomain
  | time
  | freq

/-- `FilterBank._fft_procs`.  `FR`/`FC` abstract `irfft`/`ifft` applied
along the last axis (external pyfftw collaborators); `lo` is the start of
the band-axis slice `slices_idx` (the full axis, `lo = 0`, for the direct
single-worker call). -/
def fftProcs (domain : FBDomain) (hilb : Bool) (FR FC : (ℕ → α) → ℕ → α)
    (nsamp nfilt nfrBuf half nfr W : ℕ) (X : ℕ → ℕ → ℕ → α)
    (idx1 idx2 fidx : ℕ → ℕ → ℤ) (filts : ℕ → α) (lo : ℕ) :
    ℕ → ℕ → ℕ → ℕ → α :=
  let B0 := fftBuffer nsamp nfilt nfrBuf half nfr W X idx1 idx2 fidx filts
  let B := if hilb then hilbertDouble B0 else B0
  match domain with
  | FBDomain.freq => B
  | FBDomain.time => fun c w b k => (if hilb then FC else FR) (fun h => B c w (lo + b) h) k

/-- Row slice `A[slice(lo, lo+len), :]` taken by a worker from an index
array (`tmp2 = in2[idx_]` etc. in `Parallel.process`). -/
def slicedIdx (lo : ℕ) (A : ℕ → ℕ → ℤ) : ℕ → ℕ → ℤ := fun i j => A (lo + i) j

/-- Output of worker `p` in `Parallel.process`: the projector applied to
the full `in1` (STFT) and to rows `slices[p]` of the index arrays, with
`slices_idx` selecting the same band-axis slice of the buffer. -/
def workerOut (domain : FBDomain) (hilb : Bool) (FR FC : (ℕ → α) → ℕ → α)
    (nsamp nfilt nfreqs half W : ℕ) (X : ℕ → ℕ → ℕ → α)
    (idx1 idx2 fidx : ℕ → ℕ → ℤ) (filts : ℕ → α) (N p : ℕ) :
    ℕ → ℕ → ℕ → ℕ → α :=
  fftProcs domain hilb FR FC nsamp nfilt nfreqs half
    (Parallel.sliceLen nfreqs N p) W X
    (slicedIdx (Parallel.sliceStart nfreqs N p) idx1)
    (slicedIdx (Parallel.sliceStart nfreqs N p) idx2)
    (slicedIdx (Parallel.sliceStart nfreqs N p) fidx) filts
    (Parallel.sliceStart nfreqs N p)

/-- Worker `p`'s write into the shared output buffer,
`out[out_idx] = self.function[...](...)` in `Parallel.process`: `out_idx`
selects worker `p`'s slice on the parallel axis (`axis = 2`, the band
axis, as configured by `FilterBank.init_multiprocess`), all other cells
keep their previous contents. -/
def workerWrite (L N : ℕ) (worker : ℕ → ℕ → ℕ → ℕ → ℕ → α)
    (out : ℕ → ℕ → ℕ → ℕ → α) (p : ℕ) : ℕ → ℕ → ℕ → ℕ → α :=
  fun c w b k =>
    if Parallel.sliceStart L N p ≤ b ∧
        b < Parallel.sliceStart L N p + Parallel.sliceLen L N p
    then worker p c w (b - Parallel.sliceStart L N p) k
    else out c w b k

/-- The output buffer after all workers have written their band-axis
slices (`out[out_idx] = ...` for `p = 0, …, N-1`). -/
def assembleOut (L N : ℕ) (worker : ℕ → ℕ → ℕ → ℕ → ℕ → α) :
    ℕ → ℕ → ℕ → ℕ → α :=
  (List.range N).foldl (workerWrite L N worker) fun _ _ _ _ => 0

/-- The multi-worker dispatch path (`Parallel.result` with `nprocs > 1`):
the shared output buffer assembled from the `N` workers' slices. -/
def multiResult (domain : FBDomain) (hilb : Bool) (FR FC : (ℕ → α) → ℕ → α)
    (nsamp nfilt nfreqs half W N : ℕ) (X : ℕ → ℕ → ℕ → α)
    (idx1 idx2 fidx : ℕ → ℕ → ℤ) (filts : ℕ → α) : ℕ → ℕ → ℕ → ℕ → α :=
  assembleOut nfreqs N fun p =>
    workerOut domain hilb FR FC nsamp nfilt nfreqs half W X idx1 idx2 fidx filts N p

/-- The single-worker dispatch path (`ParallelDummy.result` /
`Parallel.result` with `nprocs <= 1`): one direct projector call on the
full arrays with the default `slices_idx`. -/
def singleResult (domain : FBDomain) (hilb : Bool) (FR FC : (ℕ → α) → ℕ → α)
    (nsamp nfilt nfreqs half W : ℕ) (X : ℕ → ℕ → ℕ → α)
    (idx1 idx2 fidx : ℕ → ℕ → ℤ) (filts : ℕ → α) : ℕ → ℕ → ℕ → ℕ → α :=
  fftProcs domain hilb FR FC nsamp nfilt nfreqs half nfreqs W X idx1 idx2 fidx filts 0

end Projector

section ProjectorLemmas

variable {α : Type} [CommRing α]

theorem npWrap_natCast (n b : ℕ) : npWrap n (b : ℤ) = (b : ℤ) := by
  unfold npWrap
  rw [if_neg (not_lt.mpr (Int.natCast_nonneg b))]

theorem applyWrite_ne_row {nb nk : ℕ} (B : ℕ → ℕ → α) (t : ℤ × ℤ × α) {b : ℕ}
    (h : ¬(npWrap nb t.1 = (b : ℤ) ∧ b < nb)) (k : ℕ) :
    applyWrite nb nk B t b k = B b k := by
  unfold applyWrite
  rw [if_neg]
  tauto

/-- A fold of writes none of which targets row `b` leaves row `b` of the
accumulator unchanged. -/
theorem foldl_applyWrite_ne_row {nb nk : ℕ} {b : ℕ} :
    ∀ (ws : List (ℤ × ℤ × α)) (B : ℕ → ℕ → α),
      (∀ t ∈ ws, ¬(npWrap nb t.1 = (b : ℤ) ∧ b < nb)) → ∀ k,
      ws.foldl (applyWrite nb nk) B b k = B b k := by
  intro ws
  induction ws with
  | nil => intro B h k; rfl
  | cons t ws ih =>
      intro B h k
      rw [List.foldl_cons]
      rw [ih _ fun t' ht' => h t' (List.mem_cons_of_mem _ ht')]
      exact applyWrite_ne_row B t (h t (List.mem_cons_self _ _)) k

/-- Row `b` of a fold of writes depends only on row `b` of the initial
accumulator. -/
theorem foldl_applyWrite_row_congr {nb nk : ℕ} {b : ℕ} :
    ∀ (ws : List (ℤ × ℤ × α)) (B₁ B₂ : ℕ → ℕ → α),
      (∀ k, B₁ b k = B₂ b k) → ∀ k,
      ws.foldl (applyWrite nb nk) B₁ b k = ws.foldl (applyWrite nb nk) B₂ b k := by
  intro ws
  induction ws with
  | nil => intro B₁ B₂ h k; exact h k
  | cons t ws ih =>
      intro B₁ B₂ h k
      rw [List.foldl_cons, List.foldl_cons]
      apply ih
      intro k'
      unfold applyWrite
      split_ifs
      · rfl
      · exact h k'

/-- One-dimensional view of a row of writes: the fold of the bin-axis
writes `(idxrow j, vals j)` over the index list `l`. -/
def rowFoldList (nk : ℕ) (idxrow : ℕ → ℤ) (vals : ℕ → α) (l : List ℕ)
    (init : ℕ → α) : ℕ → α :=
  l.foldl
    (fun r j => fun k => if npWrap nk (idxrow j) = (k : ℤ) ∧ k < nk then vals j else r k)
    init

/-- Processing the writes of one row whose band target is the constant
(in-range) `b` acts on row `b` exactly as the one-dimensional fold. -/
theorem foldl_applyWrite_rowBlock {nb nk : ℕ} {b : ℕ} (hlt : b < nb)
    (idxrow : ℕ → ℤ) (vals : ℕ → α) :
    ∀ (l : List ℕ) (B : ℕ → ℕ → α) (r : ℕ → α), (∀ k, B b k = r k) → ∀ k,
      ((l.map fun j => ((b : ℤ), idxrow j, vals j)).foldl (applyWrite nb nk) B) b k =
      rowFoldList nk idxrow vals l r k := by
  intro l
  induction l with
  | nil => intro B r h k; exact h k
  | cons j l ih =>
      intro B r h k
      rw [List.map_cons, List.foldl_cons]
      unfold rowFoldList
      rw [List.foldl_cons]
      apply ih
      intro k'
      unfold applyWrite
      rw [npWrap_natCast]
      by_cases hc : npWrap nk (idxrow j) = (k' : ℤ) ∧ k' < nk
      · rw [if_pos ⟨rfl, hlt, hc⟩, if_pos hc]
      · rw [if_neg (by tauto), if_neg hc]
        exact h k'

/-- Writes of rows whose band targets all avoid `b` leave row `b`
unchanged. -/
theorem flatMap_rows_ne_row (nb nk : ℕ) (idx2 idx1 : ℕ → ℕ → ℤ) (V : ℕ → ℕ → α)
    (W : ℕ) {b : ℕ} (l : List ℕ)
    (h : ∀ i ∈ l, ∀ j, j < W → ¬(npWrap nb (idx2 i j) = (b : ℤ) ∧ b < nb))
    (B : ℕ → ℕ → α) (k : ℕ) :
    ((l.flatMap fun i => (List.range W).map fun j => (idx2 i j, idx1 i j, V i j)).foldl
      (applyWrite nb nk) B) b k = B b k := by
  apply foldl_applyWrite_ne_row
  intro t ht
  rw [List.mem_flatMap] at ht
  obtain ⟨i, hi, ht⟩ := ht
  rw [List.mem_map] at ht
  obtain ⟨j, hj, rfl⟩ := ht
  exact h i hi j (List.mem_range.1 hj)

/-- Characterisation of the fancy assignment at band row `b`: when the band
targets are given by an injective in-range row map `g` (as with the
constructed `idx2`), row `b` of the scattered buffer is the
one-dimensional fold of row `i0`'s writes over the zero row, where
`g i0 = b`. -/
theorem npScatter_row {nb nk nfr W : ℕ} (idx2 idx1 : ℕ → ℕ → ℤ) (V : ℕ → ℕ → α)
    (g : ℕ → ℕ)
    (hg : ∀ i j, i < nfr → j < W → idx2 i j = (g i : ℤ))
    (hginj : ∀ i i', i < nfr → i' < nfr → g i = g i' → i = i')
    {b i0 : ℕ} (hi0 : i0 < nfr) (hb : g i0 = b) (hlt : b < nb) (k : ℕ) :
    npScatter nb nk (bandWrites nfr W idx2 idx1 V) b k =
      rowFoldList nk (fun j => idx1 i0 j) (fun j => V i0 j) (List.range W)
        (fun _ => 0) k := by
  unfold npScatter bandWrites
  have hne : ∀ i, i < nfr → i ≠ i0 → ∀ j, j < W →
      ¬(npWrap nb (idx2 i j) = (b : ℤ) ∧ b < nb) := by
    intro i hi hne j hj hcon
    rw [hg i j hi hj, npWrap_natCast] at hcon
    have : g i = b := by exact_mod_cast hcon.1
    exact hne (hginj i i0 hi hi0 (by rw [this, hb]))
  have hsplit : List.range nfr =
      List.range i0 ++ i0 :: ((List.range (nfr - i0 - 1)).map fun x => i0 + 1 + x) := by
    obtain ⟨m, hm⟩ : ∃ m, nfr - i0 - 1 = m := ⟨_, rfl⟩
    rw [hm]
    have h1 : nfr = i0 + (m + 1) := by omega
    rw [h1, List.range_add, List.range_succ_eq_map, List.map_cons, Nat.add_zero,
      List.map_map]
    congr 2
    apply List.map_congr_left
    intro x hx
    simp only [Function.comp_apply]
    omega
  rw [hsplit, List.flatMap_append, List.flatMap_cons, List.foldl_append,
    List.foldl_append]
  set B1 := (((List.range i0).flatMap fun i =>
      (List.range W).map fun j => (idx2 i j, idx1 i j, V i j)).foldl
      (applyWrite nb nk) fun _ _ => (0 : α)) with hB1
  have hstage1 : ∀ k', B1 b k' = 0 := by
    intro k'
    rw [hB1]
    exact flatMap_rows_ne_row nb nk idx2 idx1 V W (List.range i0)
      (fun i hi j hj => hne i (by have := List.mem_range.1 hi; omega)
        (by have := List.mem_range.1 hi; omega) j hj) _ k'
  have hstage3 := flatMap_rows_ne_row nb nk idx2 idx1 V W
    ((List.range (nfr - i0 - 1)).map fun x => i0 + 1 + x)
    (by
      intro i hi j hj
      rw [List.mem_map] at hi
      obtain ⟨x, hx, rfl⟩ := hi
      have := List.mem_range.1 hx
      exact hne (i0 + 1 + x) (by omega) (by omega) j hj)
  rw [hstage3]
  have hmapeq : ((List.range W).map fun j => (idx2 i0 j, idx1 i0 j, V i0 j)) =
      ((List.range W).map fun j => ((b : ℤ), idx1 i0 j, V i0 j)) := by
    apply List.map_congr_left
    intro j hj
    rw [hg i0 j hi0 (List.mem_range.1 hj), hb]
  rw [hmapeq]
  exact foldl_applyWrite_rowBlock hlt (fun j => idx1 i0 j) (fun j => V i0 j)
    (List.range W) B1 (fun _ => 0) hstage1 k

theorem npWrap_of_nonneg {n : ℕ} {i : ℤ} (h : 0 ≤ i) : npWrap n i = i := by
  unfold npWrap
  rw [if_neg (not_lt.mpr h)]

/-- A one-dimensional fold none of whose writes targets bin `k` leaves the
initial row value at `k`. -/
theorem rowFoldList_miss {nk : ℕ} (idxrow : ℕ → ℤ) (vals : ℕ → α) :
    ∀ (l : List ℕ) (init : ℕ → α) (k : ℕ),
      (∀ j ∈ l, ¬(npWrap nk (idxrow j) = (k : ℤ) ∧ k < nk)) →
      rowFoldList nk idxrow vals l init k = init k := by
  intro l
  induction l with
  | nil => intro init k h; rfl
  | cons j l ih =>
      intro init k h
      calc rowFoldList nk idxrow vals (j :: l) init k
          = rowFoldList nk idxrow vals l
              (fun (k' : ℕ) => if npWrap nk (idxrow j) = (k' : ℤ) ∧ k' < nk
                then vals j else init k') k := rfl
        _ = (fun (k' : ℕ) => if npWrap nk (idxrow j) = (k' : ℤ) ∧ k' < nk
              then vals j else init k') k :=
            ih _ k fun j' hj' => h j' (List.mem_cons_of_mem _ hj')
        _ = init k := by
            exact if_neg (h j (List.mem_cons_self _ _))

/-- A one-dimensional fold whose unique hit on bin `k` is write `j0` stores
`vals j0` there (last write wins; with a unique hit it is the value). -/
theorem rowFoldList_hit {nk : ℕ} (idxrow : ℕ → ℤ) (vals : ℕ → α) :
    ∀ (l : List ℕ) (init : ℕ → α) (k j0 : ℕ), j0 ∈ l →
      (npWrap nk (idxrow j0) = (k : ℤ) ∧ k < nk) →
      (∀ j ∈ l, j ≠ j0 → ¬(npWrap nk (idxrow j) = (k : ℤ) ∧ k < nk)) →
      rowFoldList nk idxrow vals l init k = vals j0 := by
  intro l
  induction l with
  | nil => intro init k j0 hmem; cases hmem
  | cons j l ih =>
      intro init k j0 hmem hhit hothers
      by_cases hjl : j0 ∈ l
      · calc rowFoldList nk idxrow vals (j :: l) init k
            = rowFoldList nk idxrow vals l
                (fun (k' : ℕ) => if npWrap nk (idxrow j) = (k' : ℤ) ∧ k' < nk
                  then vals j else init k') k := rfl
          _ = vals j0 :=
              ih _ k j0 hjl hhit fun j' hj' => hothers j' (List.mem_cons_of_mem _ hj')
      · have hj : j = j0 := by
          cases List.mem_cons.1 hmem with
          | inl h => exact h.symm
          | inr h => exact absurd h hjl
        subst hj
        have hmiss : ∀ j' ∈ l, ¬(npWrap nk (idxrow j') = (k : ℤ) ∧ k < nk) := by
          intro j' hj'
          by_cases hne : j' = j
          · subst hne; exact absurd hj' hjl
          · exact hothers j' (List.mem_cons_of_mem _ hj') hne
        calc rowFoldList nk idxrow vals (j :: l) init k
            = rowFoldList nk idxrow vals l
                (fun (k' : ℕ) => if npWrap nk (idxrow j) = (k' : ℤ) ∧ k' < nk
                  then vals j else init k') k := rfl
          _ = (fun (k' : ℕ) => if npWrap nk (idxrow j) = (k' : ℤ) ∧ k' < nk
                then vals j else init k') k :=
              rowFoldList_miss idxrow vals l _ k hmiss
          _ = vals j := if_pos hhit

/-- C10 amended: with the constructed band-identity `idx2`, every element
of the `'freq'`-domain output of `_fft_procs` whose last-axis position for
band `b` is not hit by any wrapped index `npWrap half (idx1[b][j])` is
exactly zero: the complex buffer is zero-initialised and the fancy
assignment writes only the positions addressed by `(idx2, idx1)` after
numpy's negative-index wrapping (the non-DC doubling preserves zeros).
"Not an element of `idx1[b]`" suffices only for non-negative `idx1`: a
negative entry — which the DC-band configuration produces — wraps to
`half + idx1[b][j]`, a position that is not an element of `idx1[b]` yet
holds the gathered product. -/
theorem fft_procs_freq_zero_outside (hilb : Bool) (FR FC : (ℕ → α) → ℕ → α)
    (nsamp nfilt nfrBuf half nfr W : ℕ) (X : ℕ → ℕ → ℕ → α)
    (idx1 idx2 fidx : ℕ → ℕ → ℤ) (filts : ℕ → α) (lo : ℕ)
    (hid : ∀ i j, i < nfr → j < W → idx2 i j = (i : ℤ))
    {b k : ℕ} (hb : b < nfr) (hbBuf : b < nfrBuf)
    (hmiss : ∀ j, j < W → npWrap half (idx1 b j) ≠ (k : ℤ)) (c w : ℕ) :
    fftProcs FBDomain.freq hilb FR FC nsamp nfilt nfrBuf half nfr W X
      idx1 idx2 fidx filts lo c w b k = 0 := by
  have hbuf : fftBuffer nsamp nfilt nfrBuf half nfr W X idx1 idx2 fidx filts c w b k
      = 0 := by
    unfold fftBuffer
    rw [npScatter_row idx2 idx1 _ (fun i => i) hid
      (fun i i' _ _ h => h) hb rfl hbBuf k]
    apply rowFoldList_miss
    intro j hj hcon
    have hjW := List.mem_range.1 hj
    exact hmiss j hjW hcon.1
  show (if hilb then hilbertDouble (fftBuffer nsamp nfilt nfrBuf half nfr W X
      idx1 idx2 fidx filts) else fftBuffer nsamp nfilt nfrBuf half nfr W X
      idx1 idx2 fidx filts) c w b k = 0
  cases hilb with
  | false => rw [if_neg (by simp)]; exact hbuf
  | true =>
      rw [if_pos rfl]
      unfold hilbertDouble
      rw [hbuf]
      split_ifs <;> ring

/-- C10 counterexample to the claim as frozen: `nfr = 1`, `W = 1`,
`half = 4`, `idx1 ≡ -1`, `X[s] = s + 1`, unit filter — `3` is not an
element of `idx1[0] = [-1]`, yet the `'freq'`-domain output at band `0`,
position `3` is `X[-1] * filts[0] = X[3] = 4 ≠ 0`: numpy wraps the
negative index to the last column. -/
theorem fft_procs_freq_nonzero_at_wrapped_ctrex :
    (∀ j, j < 1 →
      (fun (_ : ℕ) (_ : ℕ) => (-1 : ℤ)) 0 j ≠ (3 : ℤ)) ∧
    fftProcs FBDomain.freq false (fun r k => r k) (fun r k => r k) 4 1 1 4 1 1
      (fun _ _ s => (s : ℤ) + 1) (fun _ _ => (-1 : ℤ)) (fun i _ => (i : ℤ))
      (fun _ _ => 0) (fun _ => 1) 0 0 0 0 3 = 4 ∧
    (4 : ℤ) ≠ 0 :=
  ⟨by decide, by decide, by decide⟩

/-- Witness for the amended C10: `nfr = 1`, `W = 1`, `half = 4`,
`idx1 ≡ 2` — position `0` of band `0` is hit by no wrapped index and
evaluates to zero. -/
theorem fft_procs_freq_zero_outside_witness :
    fftProcs FBDomain.freq false (fun r k => r k) (fun r k => r k) 4 1 1 4 1 1
      (fun _ _ s => (s : ℤ)) (fun _ _ => 2) (fun i _ => (i : ℤ)) (fun _ _ => 0)
      (fun _ => 1) 0 0 0 0 0 = 0 :=
  fft_procs_freq_zero_outside false (fun r k => r k) (fun r k => r k) 4 1 1 4 1 1
    (fun _ _ s => (s : ℤ)) (fun _ _ => 2) (fun i _ => (i : ℤ)) (fun _ _ => 0)
    (fun _ => 1) 0 (fun i j _ _ => rfl)
    Nat.zero_lt_one Nat.zero_lt_one (fun j _ => by norm_num [npWrap]) 0 0

/-- Definition following the spec's words for claim C2 (for comparison with
`fftBuffer`, which is the embedding of the source): the spec states the
assignment as `buffer[..., idx2, :] = X[..., idx1] * filter[fidx]`, placing
each band's `W` gathered bins at positions `0 .. W-1` — the start of the
fixed-length window, i.e. demodulated to baseband — of the target row. -/
def fftBufferSpecBaseband (nsamp nfilt nfrBuf half nfr W : ℕ) (X : ℕ → ℕ → ℕ → α)
    (idx1 idx2 fidx : ℕ → ℕ → ℤ) (filts : ℕ → α) : ℕ → ℕ → ℕ → ℕ → α :=
  fun c w => npScatter nfrBuf half
    ((List.range nfr).flatMap fun i => (List.range W).map fun j =>
      (idx2 i j, (j : ℤ), gatherMul nsamp nfilt (X c w) filts idx1 fidx i j))

/-- C2 counterexample: with one band, `W = 2`, `half = 4`,
`idx1[0] = [2, 3]`, `X[s] = s` and a unit filter, the source buffer
(`X_[:,:,idx2,idx1] = ...`) leaves position `0` of the band row zero — the
gathered bins sit at their own spectral offsets `2, 3` — whereas the
buffer described by the spec's words places gathered bin `X[2] = 2` at
position `0`. -/
theorem fft_buffer_not_baseband_ctrex :
    fftBuffer 4 1 1 4 1 2 (fun _ _ s => (s : ℤ)) (fun _ j => (j : ℤ) + 2)
      (fun i _ => (i : ℤ)) (fun _ _ => 0) (fun _ => 1) 0 0 0 0 = 0 ∧
    fftBufferSpecBaseband 4 1 1 4 1 2 (fun _ _ s => (s : ℤ)) (fun _ j => (j : ℤ) + 2)
      (fun i _ => (i : ℤ)) (fun _ _ => 0) (fun _ => 1) 0 0 0 0 = 2 ∧
    (0 : ℤ) ≠ 2 :=
  ⟨by decide, by decide, by decide⟩

/-- C2 amended: the projector fills its zero-initialised complex buffer by
`buffer[..., idx2, idx1] = X[..., idx1] * filts[fidx]`: with the
band-identity `idx2` and an in-range, within-row-injective `idx1`, the
gathered bin `j0` of band `b` is placed at its own spectral offset
`idx1[b][j0]` of that band's row (not at position `j0`), holding the
gathered product. -/
theorem fft_buffer_scatter_at_own_offset (nsamp nfilt nfrBuf half nfr W : ℕ)
    (X : ℕ → ℕ → ℕ → α) (idx1 idx2 fidx : ℕ → ℕ → ℤ) (filts : ℕ → α)
    (b j0 : ℕ)
    (hid : ∀ i j, i < nfr → j < W → idx2 i j = (i : ℤ))
    (hrange : ∀ i j, i < nfr → j < W → 0 ≤ idx1 i j ∧ idx1 i j < (half : ℤ))
    (hinj : ∀ j j', j < W → j' < W → idx1 b j = idx1 b j' → j = j')
    (hb : b < nfr) (hbBuf : b < nfrBuf) (hj0 : j0 < W) (c w : ℕ) :
    fftBuffer nsamp nfilt nfrBuf half nfr W X idx1 idx2 fidx filts c w b
        (idx1 b j0).toNat =
      npGet nsamp (X c w) (idx1 b j0) * npGet nfilt filts (fidx b j0) := by
  obtain ⟨hge, hlt⟩ := hrange b j0 hb hj0
  unfold fftBuffer
  rw [npScatter_row idx2 idx1 _ (fun i => i) hid (fun i i' _ _ h => h) hb rfl hbBuf]
  have hcast : ((idx1 b j0).toNat : ℤ) = idx1 b j0 := Int.toNat_of_nonneg hge
  apply rowFoldList_hit
  · exact List.mem_range.2 hj0
  · constructor
    · rw [npWrap_of_nonneg hge, hcast]
    · omega
  · intro j hj hne hcon
    have hjW := List.mem_range.1 hj
    rw [npWrap_of_nonneg (hrange b j hb hjW).1, hcast] at hcon
    exact hne (hinj j j0 hjW hj0 hcon.1)

/-- Witness for the amended C2 at the counterexample's configuration:
gathered bin `0` of band `0` (spectral offset `idx1[0][0] = 2`, value
`X[2] = 2`, unit filter) lands at buffer position `2`. -/
theorem fft_buffer_scatter_at_own_offset_witness :
    fftBuffer 4 1 1 4 1 2 (fun _ _ s => (s : ℤ)) (fun _ j => (j : ℤ) + 2)
      (fun i _ => (i : ℤ)) (fun _ _ => 0) (fun _ => 1) 0 0 0 2 = 2 := by
  have h := fft_buffer_scatter_at_own_offset 4 1 1 4 1 2 (fun _ _ s => (s : ℤ))
    (fun _ j => (j : ℤ) + 2) (fun i _ => (i : ℤ)) (fun _ _ => 0) (fun _ => 1) 0 0
    (fun i j _ _ => rfl)
    (fun i j _ _ => by
      show (0 : ℤ) ≤ (j : ℤ) + 2 ∧ (j : ℤ) + 2 < ((4 : ℕ) : ℤ)
      omega)
    (fun j j' _ _ hh => by
      have hh' : (j : ℤ) + 2 = (j' : ℤ) + 2 := hh
      omega)
    Nat.zero_lt_one Nat.zero_lt_one (by omega) 0 0
  exact h

theorem workerWrite_outside (L N : ℕ) (worker : ℕ → ℕ → ℕ → ℕ → ℕ → α)
    (out : ℕ → ℕ → ℕ → ℕ → α) (p : ℕ) {b : ℕ}
    (h : ¬(Parallel.sliceStart L N p ≤ b ∧
      b < Parallel.sliceStart L N p + Parallel.sliceLen L N p)) (c w k : ℕ) :
    workerWrite L N worker out p c w b k = out c w b k := by
  unfold workerWrite
  rw [if_neg h]

theorem foldl_workerWrite_outside (L N : ℕ) (worker : ℕ → ℕ → ℕ → ℕ → ℕ → α) :
    ∀ (l : List ℕ) (out : ℕ → ℕ → ℕ → ℕ → α) {b : ℕ},
      (∀ q ∈ l, ¬(Parallel.sliceStart L N q ≤ b ∧
        b < Parallel.sliceStart L N q + Parallel.sliceLen L N q)) → ∀ c w k,
      (l.foldl (workerWrite L N worker) out) c w b k = out c w b k := by
  intro l
  induction l with
  | nil => intro out b h c w k; rfl
  | cons q l ih =>
      intro out b h c w k
      rw [List.foldl_cons]
      rw [ih _ (fun q' hq' => h q' (List.mem_cons_of_mem _ hq')) c w k]
      exact workerWrite_outside L N worker out q (h q (List.mem_cons_self _ _)) c w k

/-- The assembled output at a cell of worker `p`'s band slice is worker
`p`'s output (later workers do not overwrite it, their slices being
disjoint). -/
theorem assembleOut_apply (L N : ℕ) (worker : ℕ → ℕ → ℕ → ℕ → ℕ → α) {b p : ℕ}
    (hpN : p < N) (hbl : Parallel.sliceStart L N p ≤ b)
    (hbu : b < Parallel.sliceStart L N p + Parallel.sliceLen L N p) (c w k : ℕ) :
    assembleOut L N worker c w b k = worker p c w (b - Parallel.sliceStart L N p) k := by
  unfold assembleOut
  have hsplit : List.range N =
      List.range (p + 1) ++ (List.range (N - (p + 1))).map ((p + 1) + ·) := by
    rw [← List.range_add]
    congr 1
    omega
  rw [hsplit, List.foldl_append]
  rw [foldl_workerWrite_outside L N worker _ _ ?hlater c w k]
  case hlater =>
    intro q hq hcon
    rw [List.mem_map] at hq
    obtain ⟨x, hx, rfl⟩ := hq
    have h1 : Parallel.sliceStart L N (p + 1) ≤ Parallel.sliceStart L N (p + 1 + x) :=
      Parallel.sliceStart_mono L N (by omega)
    rw [Parallel.sliceStart_succ] at h1
    omega
  rw [List.range_succ, List.foldl_append]
  show workerWrite L N worker _ p c w b k = _
  unfold workerWrite
  rw [if_pos ⟨hbl, hbu⟩]

/-- C1 amended: for inputs of the configured shapes whose `idx2` is the
band-identity index (as `_get_indices_for_frequency_shifts` always
constructs it) and time-domain output, the multi-worker dispatch
(`Parallel.result`, `nprocs = N > 1`, workers applying `_fft_procs` to
their band-axis slices) produces output exactly equal — not merely within
floating-point tolerance — to the single-worker dispatch
(`ParallelDummy.result`, a direct `_fft_procs` call), for any row-wise
inverse-FFT transforms. -/
theorem parallel_multi_eq_single (hilb : Bool) (FR FC : (ℕ → α) → ℕ → α)
    (nsamp nfilt nfreqs half W N : ℕ) (X : ℕ → ℕ → ℕ → α)
    (idx1 idx2 fidx : ℕ → ℕ → ℤ) (filts : ℕ → α)
    (hid : ∀ i j, i < nfreqs → j < W → idx2 i j = (i : ℤ))
    (hN : 1 ≤ N) (b : ℕ) (hb : b < nfreqs) (c w k : ℕ) :
    multiResult FBDomain.time hilb FR FC nsamp nfilt nfreqs half W N X
      idx1 idx2 fidx filts c w b k =
    singleResult FBDomain.time hilb FR FC nsamp nfilt nfreqs half W X
      idx1 idx2 fidx filts c w b k := by
  obtain ⟨p, ⟨hpN, hbl, hbu⟩, _⟩ := Parallel.slices_cover nfreqs N hN hb
  have hlob : Parallel.sliceStart nfreqs N p +
      (b - Parallel.sliceStart nfreqs N p) = b := by omega
  have hlolen : Parallel.sliceStart nfreqs N p + Parallel.sliceLen nfreqs N p ≤ nfreqs := by
    have h1 : Parallel.sliceStart nfreqs N (p + 1) ≤ Parallel.sliceStart nfreqs N N :=
      Parallel.sliceStart_mono nfreqs N (by omega)
    rw [Parallel.sliceStart_last nfreqs N hN] at h1
    rw [Parallel.sliceStart_succ] at h1
    exact h1
  set lo := Parallel.sliceStart nfreqs N p with hlo
  set len := Parallel.sliceLen nfreqs N p with hlen
  have hrow : ∀ h', fftBuffer nsamp nfilt nfreqs half len W X (slicedIdx lo idx1)
      (slicedIdx lo idx2) (slicedIdx lo fidx) filts c w b h'
      = fftBuffer nsamp nfilt nfreqs half nfreqs W X idx1 idx2 fidx filts c w b h' := by
    intro h'
    unfold fftBuffer
    rw [npScatter_row (slicedIdx lo idx2) (slicedIdx lo idx1) _ (fun i => lo + i)
      (fun i j hi hj => by
        unfold slicedIdx
        exact hid (lo + i) j (by omega) hj)
      (fun i i' _ _ hh => by
        have hh' : lo + i = lo + i' := hh
        omega)
      (show b - lo < len by omega) hlob hb h']
    rw [npScatter_row idx2 idx1 _ (fun i => i) hid (fun i i' _ _ hh => hh) hb rfl hb h']
    have e1 : (fun j => slicedIdx lo idx1 (b - lo) j) = fun j => idx1 b j := by
      funext j
      unfold slicedIdx
      rw [hlob]
    have e2 : (fun j => gatherMul nsamp nfilt (X c w) filts (slicedIdx lo idx1)
        (slicedIdx lo fidx) (b - lo) j) =
        fun j => gatherMul nsamp nfilt (X c w) filts idx1 fidx b j := by
      funext j
      unfold gatherMul slicedIdx
      rw [hlob]
    rw [e1, e2]
  unfold multiResult
  rw [assembleOut_apply nfreqs N _ hpN hbl hbu c w k]
  cases hilb with
  | false =>
      show FR (fun h' => fftBuffer nsamp nfilt nfreqs half len W X (slicedIdx lo idx1)
          (slicedIdx lo idx2) (slicedIdx lo fidx) filts c w (lo + (b - lo)) h') k =
        FR (fun h' => fftBuffer nsamp nfilt nfreqs half nfreqs W X idx1 idx2 fidx
          filts c w (0 + b) h') k
      congr 1
      funext h'
      rw [hlob, Nat.zero_add]
      exact hrow h'
  | true =>
      show FC (fun h' => hilbertDouble (fftBuffer nsamp nfilt nfreqs half len W X
          (slicedIdx lo idx1) (slicedIdx lo idx2) (slicedIdx lo fidx) filts)
          c w (lo + (b - lo)) h') k =
        FC (fun h' => hilbertDouble (fftBuffer nsamp nfilt nfreqs half nfreqs W X
          idx1 idx2 fidx filts) c w (0 + b) h') k
      congr 1
      funext h'
      unfold hilbertDouble
      rw [hlob, Nat.zero_add, hrow h']

/-- C1 counterexample to the claim as stated: for an input of the
configured shapes whose `idx2` is not the band-identity index
(`idx2 = [[1], [0]]`), the multi-worker path loses the cross-slice
scatter — worker 0 computes band 1's data but returns only its own band-0
slice — and the two paths differ: the multi-worker output is `0` at band 0
while the single-worker output is `5`. -/
theorem parallel_multi_single_mismatch_ctrex :
    multiResult FBDomain.time false (fun r k => r k) (fun r k => r k) 1 1 2 1 1 2
      (fun _ _ _ => (5 : ℤ)) (fun _ _ => 0) (fun i _ => 1 - (i : ℤ)) (fun _ _ => 0)
      (fun _ => 1) 0 0 0 0 = 0 ∧
    singleResult FBDomain.time false (fun r k => r k) (fun r k => r k) 1 1 2 1 1
      (fun _ _ _ => (5 : ℤ)) (fun _ _ => 0) (fun i _ => 1 - (i : ℤ)) (fun _ _ => 0)
      (fun _ => 1) 0 0 0 0 = 5 ∧
    (0 : ℤ) ≠ 5 :=
  ⟨by decide, by decide, by decide⟩

/-- Witness for the amended C1: with the band-identity `idx2`, two workers
and two bands, the multi-worker and single-worker outputs agree at a
concrete cell. -/
theorem parallel_multi_eq_single_witness :
    multiResult FBDomain.time false (fun r k => r k) (fun r k => r k) 1 1 2 1 1 2
      (fun _ _ _ => (5 : ℤ)) (fun _ _ => 0) (fun i _ => (i : ℤ)) (fun _ _ => 0)
      (fun _ => 1) 0 0 1 0 =
    singleResult FBDomain.time false (fun r k => r k) (fun r k => r k) 1 1 2 1 1
      (fun _ _ _ => (5 : ℤ)) (fun _ _ => 0) (fun i _ => (i : ℤ)) (fun _ _ => 0)
      (fun _ => 1) 0 0 1 0 :=
  parallel_multi_eq_single false (fun r k => r k) (fun r k => r k) 1 1 2 1 1 2
    (fun _ _ _ => (5 : ℤ)) (fun _ _ => 0) (fun i _ => (i : ℤ)) (fun _ _ => 0)
    (fun _ => 1) (fun i j _ _ => rfl) (by omega) 1 (by omega) 0 0 0

/-- The `axis` argument that `FilterBank.init_multiprocess` passes to
`Parallel` (`axis=2` at `filterbank.py` line 133). -/
def filterBankParallelAxis : ℕ := 2

/-- The index of the window axis in the output shape
`(nch, self._nwin, nfreqs, binsize // decimate_by)` built in
`FilterBank.__init__`. -/
def outWindowAxis : ℕ := 1

/-- C6 counterexample: the dispatcher does not partition the output's
window axis.  The `axis` passed to `Parallel` is `2` (the band axis), not
`1` (the window axis); concretely, with two windows and two workers,
worker 0's write changes the cell at window index `1` — outside worker 0's
window-axis slice `[0, 1)` — from `0` to `5`, and the sliced inputs are
the index arrays, not the window-dependent STFT. -/
theorem parallel_partition_axis_ctrex :
    filterBankParallelAxis ≠ outWindowAxis ∧
    ¬(Parallel.sliceStart 2 2 0 ≤ 1 ∧
        1 < Parallel.sliceStart 2 2 0 + Parallel.sliceLen 2 2 0) ∧
    workerWrite 2 2
      (fun p => workerOut FBDomain.time false (fun r k => r k) (fun r k => r k)
        1 1 2 1 1 (fun _ _ _ => (5 : ℤ)) (fun _ _ => 0) (fun i _ => (i : ℤ))
        (fun _ _ => 0) (fun _ => 1) 2 p)
      (fun _ _ _ _ => 0) 0 0 1 0 0 = 5 ∧
    (5 : ℤ) ≠ 0 :=
  ⟨by decide, by decide, by decide, by decide⟩

/-- C6 amended: when `N > 1` the axis the dispatcher partitions across
workers is `axis = 2` of the output — the band axis, not the window axis —
and each worker is permanently bound to its own row-slice of the three
index arrays (the window-dependent STFT input is fully visible to every
worker); each worker writes only its own band-axis slice of the output,
leaving every cell outside that slice (any window index included)
unchanged. -/
theorem parallel_partitions_band_axis (L N : ℕ)
    (worker : ℕ → ℕ → ℕ → ℕ → ℕ → α) (out : ℕ → ℕ → ℕ → ℕ → α) (p : ℕ)
    {b : ℕ}
    (h : ¬(Parallel.sliceStart L N p ≤ b ∧
      b < Parallel.sliceStart L N p + Parallel.sliceLen L N p)) (c w k : ℕ) :
    filterBankParallelAxis = 2 ∧
    workerWrite L N worker out p c w b k = out c w b k :=
  ⟨rfl, workerWrite_outside L N worker out p h c w k⟩

/-- Witness for the amended C6: with two bands and two workers, band `1`
lies outside worker 0's slice `[0, 1)` and worker 0's write leaves the
cell unchanged. -/
theorem parallel_partitions_band_axis_witness :
    filterBankParallelAxis = 2 ∧
    workerWrite 2 2
      (fun p => workerOut FBDomain.time false (fun r k => r k) (fun r k => r k)
        1 1 2 1 1 (fun _ _ _ => (5 : ℤ)) (fun _ _ => 0) (fun i _ => (i : ℤ))
        (fun _ _ => 0) (fun _ => 1) 2 p)
      (fun _ _ _ _ => 0) 0 0 0 1 0 = (fun _ _ _ _ => (0 : ℤ)) 0 0 1 0 :=
  parallel_partitions_band_axis 2 2
    (fun p => workerOut FBDomain.time false (fun r k => r k) (fun r k => r k)
      1 1 2 1 1 (fun _ _ _ => (5 : ℤ)) (fun _ _ => 0) (fun i _ => (i : ℤ))
      (fun _ _ => 0) (fun _ => 1) 2 p)
    (fun _ _ _ _ => 0) 0 (by decide) 0 0 0

end ProjectorLemmas

/-!
## The index construction `FilterBank._get_indices_for_frequency_shifts`

Floating-point quantities (`interval_per_hz`, bandwidth products) are
modelled as exact rationals; Python `int(...)` and the `np.int32` casts
truncate toward zero (`ratTrunc`).  `np.arange(start, stop)` with unit
step has `max(0, ceil(stop - start))` elements `start, start+1, …`; the
float values arising here are integer-valued, so storing them into the
`int32` index arrays keeps them unchanged.  The in-place broadcast
`index1 += np.atleast_2d(cf_ix_) - int(...)` of a `(1, nfreqs)` operand
onto the `(nfreqs, W)` array is valid only when `nfreqs = 1` (broadcast
across each row) or `nfreqs = W` (elementwise against each row); any other
shape raises a `ValueError`, modelled as `none`.
-/

/-- Configuration fields of `FilterBank` consumed by
`_get_indices_for_frequency_shifts` (after the external
`get_all_frequencies` has resolved `center_freqs`, `bandwidth` and
`freq_bands`). -/
structure FBConfig where
  binsize : ℕ
  sampleRate : ℚ
  bandwidth : ℚ
  centerFreqs : List ℚ
  freqBands : List (ℚ × ℚ)
deriving DecidableEq

namespace FBConfig

/-- `self._factor = .6`. -/
def factor : ℚ := 3 / 5

/-- `self._nfreqs = self.freq_bands.shape[0]`. -/
def nfreqs (c : FBConfig) : ℕ := c.freqBands.length

/-- `self._interval_per_hz = self._binsize / self.sample_rate`. -/
def iph (c : FBConfig) : ℚ := (c.binsize : ℚ) / c.sampleRate

/-- The window length
`W = int((self.bandwidth * self._factor) * 2 * self.interval_per_hz)`
(the column count of the three index arrays). -/
def wlen (c : FBConfig) : ℕ := (ratTrunc (c.bandwidth * factor * 2 * c.iph)).toNat

/-- `cf_ix_ = np.asarray(self.center_freqs * self.interval_per_hz, dtype=np.int32)`. -/
def cfIx (c : FBConfig) : List ℤ := c.centerFreqs.map fun f => ratTrunc (f * c.iph)

/-- `int(self.interval_per_hz * self.bandwidth * self._factor)`. -/
def halfWin (c : FBConfig) : ℤ := ratTrunc (c.iph * c.bandwidth * factor)

/-- `l_bound = self._binsize // 2 - int(self.interval_per_hz * self.bandwidth * self._factor)`. -/
def lBound (c : FBConfig) : ℤ := ((c.binsize / 2 : ℕ) : ℤ) - c.halfWin

end FBConfig

/-- Number of elements of `np.arange(start, stop)` with unit step. -/
def arangeSize (start stop : ℚ) : ℕ := (ratCeil (stop - start)).toNat

/-- `np.arange` from an integer start taking `n` unit steps. -/
def arangeInt (start : ℤ) (n : ℕ) : List ℤ :=
  (List.range n).map fun (j : ℕ) => start + (j : ℤ)

/-- The row computed by one iteration of the `self._fidx` loop:
`np.arange(l_bound, l_bound + (bw*factor)*2*iph + diff)` where `diff`
corrects the arange size to the allocated width `W`. -/
def fidxRow (c : FBConfig) : List ℤ :=
  let lb := FBConfig.lBound c
  let stop1 := (lb : ℚ) + c.bandwidth * FBConfig.factor * 2 * c.iph
  let diff : ℤ := (c.wlen : ℤ) - (arangeSize (lb : ℚ) stop1 : ℤ)
  arangeInt lb (arangeSize (lb : ℚ) (stop1 + diff))

/-- The `self._fidx` loop of `_get_indices_for_frequency_shifts`: for every
band (the loop variable is unused) the same row is stored; `none` models
the numpy shape error were a row not of length `W`. -/
def fidxRows (c : FBConfig) : Option (List (List ℤ)) :=
  let rows := (List.range c.nfreqs).map fun _ => fidxRow c
  if rows.all (fun r => r.length = c.wlen) then some rows else none

/-- In-place broadcast `A += np.atleast_2d(B)` of a `(1, B.length)` operand
onto the rows of `A` (shape `(nrows, W)`): valid when `B` has one element
or when every row has length `B.length`; otherwise numpy raises a
broadcast `ValueError`, modelled as `none`. -/
def npAddRowBroadcast (A : List (List ℤ)) (B : List ℤ) : Option (List (List ℤ)) :=
  if B.length = 1 then some (A.map fun r => r.map fun v => v + B.headD 0)
  else if A.all fun r => r.length = B.length then
    some (A.map fun r => r.zipWith (fun a b => a + b) B)
  else none

/-- `Code 1` of `_get_indices_for_frequency_shifts`:
`index1, index2 = np.meshgrid(np.arange(W), np.arange(nfreqs))` gives
`index1[i][j] = j` and `index2[i][j] = i`, then
`index1 += np.atleast_2d(cf_ix_) - int(iph * bandwidth * factor)`. -/
def idxPair (c : FBConfig) : Option (List (List ℤ) × List (List ℤ)) :=
  let W := c.wlen
  let index1 := (List.range c.nfreqs).map fun _ =>
    (List.range W).map fun (j : ℕ) => (j : ℤ)
  let index2 := (List.range c.nfreqs).map fun (i : ℕ) =>
    (List.range W).map fun _ => (i : ℤ)
  let B := (FBConfig.cfIx c).map fun v => v - FBConfig.halfWin c
  match npAddRowBroadcast index1 B with
  | some idx1 => some (idx1, index2)
  | none => none

/-- The three index arrays produced at `FilterBank` construction. -/
structure IndexArrays where
  fidx : List (List ℤ)
  idx1 : List (List ℤ)
  idx2 : List (List ℤ)
deriving DecidableEq

/-- `FilterBank._get_indices_for_frequency_shifts`: builds `fidx` then
`idx1`/`idx2`; `none` models a numpy shape/broadcast error. -/
def getIndicesForFrequencyShifts (c : FBConfig) : Option IndexArrays :=
  match fidxRows c, idxPair c with
  | some f, some pr => some ⟨f, pr.1, pr.2⟩
  | _, _ => none

/-- The arrays of a successful construction (used to name the concrete
result in witnesses). -/
def arrsOf (c : FBConfig) : IndexArrays :=
  (getIndicesForFrequencyShifts c).getD ⟨[], [], []⟩

/-- `getD` of a map over `List.range`. -/
theorem getD_map_range {β : Type} (n i : ℕ) (f : ℕ → β) (d : β) (h : i < n) :
    ((List.range n).map f).getD i d = f i := by
  rw [List.getD_eq_getElem?_getD, List.getElem?_map, List.getElem?_range h]
  rfl

/-- Split a successful construction into its parts. -/
theorem getIndices_parts {c : FBConfig} {arrs : IndexArrays}
    (hsome : getIndicesForFrequencyShifts c = some arrs) :
    fidxRows c = some arrs.fidx ∧
    idxPair c = some (arrs.idx1, arrs.idx2) := by
  unfold getIndicesForFrequencyShifts at hsome
  cases hf : fidxRows c with
  | none => rw [hf] at hsome; cases hsome
  | some rows =>
      cases hp : idxPair c with
      | none => rw [hf, hp] at hsome; cases hsome
      | some pr =>
          rw [hf, hp] at hsome
          injection hsome with hsome
          subst hsome
          exact ⟨rfl, rfl⟩

/-- The rows `fidxRows` actually stores. -/
theorem fidxRows_spec {c : FBConfig} {rows : List (List ℤ)}
    (h : fidxRows c = some rows) :
    rows = (List.range c.nfreqs).map (fun _ => fidxRow c) ∧
    ∀ r ∈ rows, r.length = c.wlen := by
  simp only [fidxRows] at h
  split_ifs at h with hall
  · injection h with h
    subst h
    exact ⟨rfl, fun r hr => by
      have := List.all_eq_true.1 hall r hr
      exact of_decide_eq_true this⟩

/-- C9: the filter-coefficient index array does not depend on the band:
whenever construction succeeds, every row of `fidx` is the same list, and
each row is the contiguous run starting at
`binsize // 2 - int(interval_per_hz * bandwidth * factor)`: element `j` is
`l_bound + j`. -/
theorem fidx_rows_identical (c : FBConfig) (arrs : IndexArrays)
    (hsome : getIndicesForFrequencyShifts c = some arrs) (i i' j : ℕ)
    (hi : i < c.nfreqs) (hi' : i' < c.nfreqs) (hj : j < c.wlen) :
    arrs.fidx.getD i [] = arrs.fidx.getD i' [] ∧
    (arrs.fidx.getD i []).getD j 0 =
      (((c.binsize / 2 : ℕ) : ℤ) - ratTrunc (c.iph * c.bandwidth * FBConfig.factor)) + j := by
  obtain ⟨hf, _⟩ := getIndices_parts hsome
  obtain ⟨hrows, hlen⟩ := fidxRows_spec hf
  have hgetD : ∀ t, t < c.nfreqs → arrs.fidx.getD t [] = fidxRow c := by
    intro t ht
    rw [hrows]
    exact getD_map_range _ _ _ _ ht
  constructor
  · rw [hgetD i hi, hgetD i' hi']
  · have hmem : fidxRow c ∈ arrs.fidx := by
      rw [hrows]
      exact List.mem_map.2 ⟨i, List.mem_range.2 hi, rfl⟩
    have hlen' : (fidxRow c).length = c.wlen := hlen _ hmem
    rw [hgetD i hi]
    show (fidxRow c).getD j 0 = _
    unfold fidxRow at hlen' ⊢
    unfold arangeInt at hlen' ⊢
    rw [List.length_map, List.length_range] at hlen'
    rw [getD_map_range _ _ _ _ (by rw [hlen']; exact hj)]
    rfl

/-!
## Concrete configurations

`cfgDC` is a valid band configuration (positive bandwidth, band inside
`[0, Nyquist]`) whose band sits at DC: `binsize = 1024`,
`sample_rate = 1000`, bandwidth `10`, centre frequency `5`, band
`[0, 10]`.  Its derived quantities: `interval_per_hz = 1.024`, `W = 12`,
`int(iph*bw*factor) = int(6.144) = 6`, `cf_ix = int(5.12) = 5`, so
`idx1[0][0] = 0 + 5 - 6 = -1`.
-/

def cfgDC : FBConfig := ⟨1024, 1000, 10, [5], [(0, 10)]⟩

theorem cfgDC_wlen : FBConfig.wlen cfgDC = 12 := by
  norm_num [FBConfig.wlen, FBConfig.factor, FBConfig.iph, ratTrunc, ratFloor, cfgDC]
  rfl

theorem cfgDC_halfWin : FBConfig.halfWin cfgDC = 6 := by
  norm_num [FBConfig.halfWin, FBConfig.factor, FBConfig.iph, ratTrunc, ratFloor, cfgDC]

theorem cfgDC_cfIx : FBConfig.cfIx cfgDC = [5] := by
  norm_num [FBConfig.cfIx, FBConfig.iph, ratTrunc, ratFloor, cfgDC]

theorem cfgDC_lBound : FBConfig.lBound cfgDC = 506 := by
  unfold FBConfig.lBound
  rw [cfgDC_halfWin]
  norm_num [cfgDC]

theorem cfgDC_row : fidxRow cfgDC = arangeInt 506 12 := by
  simp only [fidxRow, cfgDC_lBound, cfgDC_wlen]
  norm_num [arangeSize, ratCeil, ratFloor, FBConfig.factor, FBConfig.iph, cfgDC]
  rfl

/-- The index arrays `_get_indices_for_frequency_shifts` computes at
`cfgDC`. -/
def arrsDC : IndexArrays :=
  ⟨[arangeInt 506 12],
    [(List.range 12).map fun (j : ℕ) => (j : ℤ) + (-1)],
    [(List.range 12).map fun (_ : ℕ) => (0 : ℤ)]⟩

theorem cfgDC_indices : getIndicesForFrequencyShifts cfgDC = some arrsDC := by
  simp only [getIndicesForFrequencyShifts, fidxRows, idxPair, FBConfig.nfreqs,
    cfgDC_row, cfgDC_wlen, cfgDC_cfIx, cfgDC_halfWin, npAddRowBroadcast, arrsDC]
  norm_num [cfgDC, arangeInt]
  decide

/-- C3 counterexample: at the valid band configuration `cfgDC` (positive
bandwidth, band `[0, 10] ⊆ [0, 500]`), the construction succeeds and
`idx1[0][0] = -1`, outside the claimed range `[0, binsize/2)` — the code
clips nothing. -/
theorem index_bounds_ctrex :
    (0 : ℚ) < cfgDC.bandwidth ∧
    (∀ pr ∈ cfgDC.freqBands, 0 ≤ pr.1 ∧ pr.1 < pr.2 ∧ pr.2 ≤ cfgDC.sampleRate / 2) ∧
    getIndicesForFrequencyShifts cfgDC = some arrsDC ∧
    ((arrsDC.idx1.getD 0 []).getD 0 0 = -1) ∧
    ¬(0 ≤ (arrsDC.idx1.getD 0 []).getD 0 0) := by
  refine ⟨by norm_num [cfgDC], ?_, cfgDC_indices, by decide, by decide⟩
  intro pr hpr
  simp only [cfgDC, List.mem_singleton] at hpr
  subst hpr
  norm_num [cfgDC]

/-!
`cfgW0` is a configuration whose derived window length is `W = 0`
(`bandwidth = 0.1` Hz: `int(0.1 * 0.6 * 2 * 1.024) = int(0.12288) = 0`). -/

def cfgW0 : FBConfig := ⟨1024, 1000, 1/10, [1/2], [(9/20, 11/20)]⟩

theorem cfgW0_wlen : FBConfig.wlen cfgW0 = 0 := by
  norm_num [FBConfig.wlen, FBConfig.factor, FBConfig.iph, ratTrunc, ratFloor, cfgW0]

theorem cfgW0_halfWin : FBConfig.halfWin cfgW0 = 0 := by
  norm_num [FBConfig.halfWin, FBConfig.factor, FBConfig.iph, ratTrunc, ratFloor, cfgW0]

theorem cfgW0_cfIx : FBConfig.cfIx cfgW0 = [0] := by
  norm_num [FBConfig.cfIx, FBConfig.iph, ratTrunc, ratFloor, cfgW0]

theorem cfgW0_lBound : FBConfig.lBound cfgW0 = 512 := by
  unfold FBConfig.lBound
  rw [cfgW0_halfWin]
  norm_num [cfgW0]

theorem cfgW0_row : fidxRow cfgW0 = arangeInt 512 0 := by
  simp only [fidxRow, cfgW0_lBound, cfgW0_wlen]
  norm_num [arangeSize, ratCeil, ratFloor, FBConfig.factor, FBConfig.iph, cfgW0]

theorem cfgW0_indices :
    getIndicesForFrequencyShifts cfgW0 = some ⟨[[]], [[]], [[]]⟩ := by
  simp only [getIndicesForFrequencyShifts, fidxRows, idxPair, FBConfig.nfreqs,
    cfgW0_row, cfgW0_wlen, cfgW0_cfIx, cfgW0_halfWin, npAddRowBroadcast]
  norm_num [cfgW0, arangeInt]

/-- C7: the code raises no `ConfigurationError` — no such error or
validation exists in `FilterBank.__init__` or
`_get_indices_for_frequency_shifts`.  At `cfgDC` construction completes
returning arrays whose `idx1[0][0] = -1` is out of bounds, and numpy's
fancy indexing later silently wraps it to the last column of the
`binsize/2`-wide axis (`npWrap 512 (-1) = 511`); at `cfgW0`, whose derived
`W` is `0`, construction likewise completes silently with empty index
arrays. -/
theorem no_configuration_error_on_invalid_config :
    getIndicesForFrequencyShifts cfgDC = some arrsDC ∧
    ((arrsDC.idx1.getD 0 []).getD 0 0 = -1) ∧
    npWrap (cfgDC.binsize / 2) ((arrsDC.idx1.getD 0 []).getD 0 0) = 511 ∧
    FBConfig.wlen cfgW0 = 0 ∧
    getIndicesForFrequencyShifts cfgW0 = some ⟨[[]], [[]], [[]]⟩ :=
  ⟨cfgDC_indices, by decide, by decide, cfgW0_wlen, cfgW0_indices⟩

/-- Split a successful `idxPair` into the broadcast result and the
meshgrid `index2`. -/
theorem idxPair_spec {c : FBConfig} {pr : List (List ℤ) × List (List ℤ)}
    (h : idxPair c = some pr) :
    npAddRowBroadcast
      ((List.range c.nfreqs).map fun _ => (List.range c.wlen).map fun (j : ℕ) => (j : ℤ))
      ((FBConfig.cfIx c).map fun v => v - FBConfig.halfWin c) = some pr.1 ∧
    pr.2 = (List.range c.nfreqs).map fun (i : ℕ) =>
      (List.range c.wlen).map fun _ => (i : ℤ) := by
  simp only [idxPair] at h
  cases hbc : npAddRowBroadcast
      ((List.range c.nfreqs).map fun _ => (List.range c.wlen).map fun (j : ℕ) => (j : ℤ))
      ((FBConfig.cfIx c).map fun v => v - FBConfig.halfWin c) with
  | none => rw [hbc] at h; cases h
  | some idx1 =>
      rw [hbc] at h
      injection h with h
      subst h
      exact ⟨rfl, rfl⟩

/-- A successful broadcast add preserves the row count and row lengths. -/
theorem npAddRowBroadcast_rows {A : List (List ℤ)} {B : List ℤ}
    {res : List (List ℤ)} (h : npAddRowBroadcast A B = some res) (W : ℕ)
    (hA : ∀ r ∈ A, r.length = W) :
    res.length = A.length ∧ ∀ r ∈ res, r.length = W := by
  unfold npAddRowBroadcast at h
  split_ifs at h with h1 h2
  · injection h with h
    subst h
    refine ⟨List.length_map _ _, ?_⟩
    intro r hr
    rw [List.mem_map] at hr
    obtain ⟨r0, hr0, rfl⟩ := hr
    rw [List.length_map]
    exact hA r0 hr0
  · injection h with h
    subst h
    refine ⟨List.length_map _ _, ?_⟩
    intro r hr
    rw [List.mem_map] at hr
    obtain ⟨r0, hr0, rfl⟩ := hr
    have hr0B : r0.length = B.length :=
      of_decide_eq_true (List.all_eq_true.1 h2 r0 hr0)
    rw [List.length_zipWith, hr0B, min_self, ← hr0B]
    exact hA r0 hr0

/-- Every element of a successful broadcast add is an element of some row
of `A` plus an element of `B`. -/
theorem npAddRowBroadcast_elem {A : List (List ℤ)} {B : List ℤ}
    {res : List (List ℤ)} (h : npAddRowBroadcast A B = some res) :
    ∀ r ∈ res, ∀ v ∈ r, ∃ r0 ∈ A, ∃ a ∈ r0, ∃ b ∈ B, v = a + b := by
  unfold npAddRowBroadcast at h
  split_ifs at h with h1 h2
  · injection h with h
    subst h
    intro r hr v hv
    rw [List.mem_map] at hr
    obtain ⟨r0, hr0, rfl⟩ := hr
    rw [List.mem_map] at hv
    obtain ⟨a, ha, rfl⟩ := hv
    refine ⟨r0, hr0, a, ha, B.headD 0, ?_, rfl⟩
    cases B with
    | nil => simp at h1
    | cons bb bs => exact List.mem_cons_self _ _
  · injection h with h
    subst h
    intro r hr v hv
    rw [List.mem_map] at hr
    obtain ⟨r0, hr0, rfl⟩ := hr
    obtain ⟨i, hi, hval⟩ := List.mem_iff_getElem.1 hv
    have hlz := List.length_zipWith (fun a b => a + b) r0 B
    have hir : i < r0.length := by
      rw [hlz] at hi
      omega
    have hib : i < B.length := by
      rw [hlz] at hi
      omega
    rw [List.getElem_zipWith] at hval
    exact ⟨r0, hr0, r0[i], List.getElem_mem hir, B[i], List.getElem_mem hib, hval.symm⟩

/-- Arithmetic bounds on `l_bound` for a valid configuration: the `fidx`
run `[l_bound, l_bound + W)` lies inside `[0, binsize)`. -/
theorem lBound_bounds (c : FBConfig) (hsr : 0 < c.sampleRate)
    (hbw : 0 ≤ c.bandwidth) (hnyq : c.bandwidth ≤ c.sampleRate / 2)
    (hbin : 1 ≤ c.binsize) :
    0 ≤ FBConfig.lBound c ∧ FBConfig.lBound c + (c.wlen : ℤ) ≤ (c.binsize : ℤ) := by
  set q := c.iph * c.bandwidth * FBConfig.factor with hq
  have hiph : (0 : ℚ) ≤ c.iph := by
    unfold FBConfig.iph
    exact div_nonneg (by positivity) (le_of_lt hsr)
  have hq0 : (0 : ℚ) ≤ q := by
    rw [hq]
    apply mul_nonneg (mul_nonneg hiph hbw)
    norm_num [FBConfig.factor]
  have htr : FBConfig.halfWin c = ⌊q⌋ := by
    unfold FBConfig.halfWin
    rw [← hq]
    exact ratTrunc_eq_floor hq0
  have hW : (c.wlen : ℤ) = ⌊2 * q⌋ := by
    unfold FBConfig.wlen
    have h2q : c.bandwidth * FBConfig.factor * 2 * c.iph = 2 * q := by rw [hq]; ring
    rw [h2q, ratTrunc_eq_floor (by linarith), Int.toNat_of_nonneg
      (Int.floor_nonneg.2 (by linarith))]
  have hqb : q ≤ 3 * (c.binsize : ℚ) / 10 := by
    rw [hq]
    unfold FBConfig.factor
    have h1 : c.iph * c.bandwidth ≤ c.iph * (c.sampleRate / 2) :=
      mul_le_mul_of_nonneg_left hnyq hiph
    have h2 : c.iph * (c.sampleRate / 2) * (3 / 5) = 3 * (c.binsize : ℚ) / 10 := by
      unfold FBConfig.iph
      field_simp
      ring
    calc c.iph * c.bandwidth * (3 / 5)
        ≤ c.iph * (c.sampleRate / 2) * (3 / 5) := by
          apply mul_le_mul_of_nonneg_right h1
          norm_num
      _ = 3 * (c.binsize : ℚ) / 10 := h2
  set z := ⌊q⌋ with hz
  have hz0 : 0 ≤ z := Int.floor_nonneg.2 hq0
  have hz1 : (z : ℚ) ≤ q := Int.floor_le q
  have h10z : 10 * z ≤ 3 * (c.binsize : ℤ) := by
    have h3 : (10 : ℚ) * z ≤ 3 * (c.binsize : ℚ) := by
      have := hqb
      nlinarith
    exact_mod_cast h3
  have hW2 : ⌊2 * q⌋ ≤ 2 * z + 1 := by
    have hlt : 2 * q < ((2 * z + 2 : ℤ) : ℚ) := by
      have h4 := Int.lt_floor_add_one q
      rw [← hz] at h4
      push_cast
      linarith
    have h5 := Int.floor_lt.2 hlt
    omega
  have hWnn : 0 ≤ ⌊2 * q⌋ := Int.floor_nonneg.2 (by linarith)
  have hu : 2 * (c.binsize / 2) ≤ c.binsize ∧ c.binsize ≤ 2 * (c.binsize / 2) + 1 := by
    omega
  unfold FBConfig.lBound
  rw [htr, hW]
  constructor
  · omega
  · omega

theorem length_arangeInt (s : ℤ) (n : ℕ) : (arangeInt s n).length = n := by
  unfold arangeInt
  rw [List.length_map, List.length_range]

theorem mem_arangeInt {s : ℤ} {n : ℕ} {v : ℤ} (h : v ∈ arangeInt s n) :
    ∃ j : ℕ, j < n ∧ v = s + j := by
  unfold arangeInt at h
  rw [List.mem_map] at h
  obtain ⟨j, hj, rfl⟩ := h
  exact ⟨j, List.mem_range.1 hj, rfl⟩

/-- C3 amended: for every valid band configuration (positive rate,
`0 ≤ bandwidth ≤ Nyquist`) for which the construction succeeds, the three
index arrays have shape `(nfreqs, W)`, every element of `idx2` lies in
`[0, nfreqs)` and every element of `fidx` lies in `[0, binsize)` —
unconditionally; every element of `idx1` lies in `[0, binsize/2)` only
under the additional condition (the final implication) that each band's
window `[cf_ix - int(iph*bw*factor), cf_ix - int(iph*bw*factor) + W)`
already sits inside `[0, binsize/2)` — the code performs no clipping, and
bands near DC (or Nyquist) violate the `idx1` bounds. -/
theorem index_arrays_shape_and_bounds (c : FBConfig) (arrs : IndexArrays)
    (hsome : getIndicesForFrequencyShifts c = some arrs)
    (hsr : 0 < c.sampleRate) (hbw : 0 ≤ c.bandwidth)
    (hnyq : c.bandwidth ≤ c.sampleRate / 2) (hbin : 1 ≤ c.binsize) :
    (arrs.fidx.length = c.nfreqs ∧ arrs.idx1.length = c.nfreqs ∧
      arrs.idx2.length = c.nfreqs) ∧
    ((∀ r ∈ arrs.fidx, r.length = c.wlen) ∧
      (∀ r ∈ arrs.idx1, r.length = c.wlen) ∧
      (∀ r ∈ arrs.idx2, r.length = c.wlen)) ∧
    (∀ r ∈ arrs.idx2, ∀ v ∈ r, 0 ≤ v ∧ v < (c.nfreqs : ℤ)) ∧
    (∀ r ∈ arrs.fidx, ∀ v ∈ r, 0 ≤ v ∧ v < (c.binsize : ℤ)) ∧
    ((∀ f ∈ c.centerFreqs,
        0 ≤ ratTrunc (f * c.iph) - FBConfig.halfWin c ∧
        ratTrunc (f * c.iph) - FBConfig.halfWin c + (c.wlen : ℤ) ≤
          ((c.binsize / 2 : ℕ) : ℤ)) →
      ∀ r ∈ arrs.idx1, ∀ v ∈ r, 0 ≤ v ∧ v < ((c.binsize / 2 : ℕ) : ℤ)) := by
  obtain ⟨hf, hp⟩ := getIndices_parts hsome
  obtain ⟨hrows, hlenf⟩ := fidxRows_spec hf
  obtain ⟨hbc0, hidx20⟩ := idxPair_spec hp
  have hbc : npAddRowBroadcast
      ((List.range c.nfreqs).map
        (fun _ => (List.range c.wlen).map fun (j : ℕ) => (j : ℤ)))
      (c.cfIx.map (fun v => v - FBConfig.halfWin c)) = some arrs.idx1 := hbc0
  have hidx2 : arrs.idx2 = (List.range c.nfreqs).map
      (fun (i : ℕ) => (List.range c.wlen).map fun _ => (i : ℤ)) := hidx20
  have hA : ∀ r ∈ (List.range c.nfreqs).map
      (fun _ => (List.range c.wlen).map fun (j : ℕ) => (j : ℤ)),
      r.length = c.wlen := by
    intro r hr
    rw [List.mem_map] at hr
    obtain ⟨i, _, rfl⟩ := hr
    rw [List.length_map, List.length_range]
  obtain ⟨hlen1, hrow1⟩ := npAddRowBroadcast_rows hbc c.wlen hA
  have hlb := lBound_bounds c hsr hbw hnyq hbin
  refine ⟨⟨?_, ?_, ?_⟩, ⟨?_, ?_, ?_⟩, ?_, ?_, ?_⟩
  · rw [hrows, List.length_map, List.length_range]
  · rw [hlen1, List.length_map, List.length_range]
  · rw [hidx2, List.length_map, List.length_range]
  · exact hlenf
  · exact hrow1
  · intro r hr
    rw [hidx2] at hr
    rw [List.mem_map] at hr
    obtain ⟨i, _, rfl⟩ := hr
    rw [List.length_map, List.length_range]
  · intro r hr v hv
    rw [hidx2] at hr
    rw [List.mem_map] at hr
    obtain ⟨i, hi, rfl⟩ := hr
    rw [List.mem_map] at hv
    obtain ⟨_, _, rfl⟩ := hv
    have hiN : i < c.nfreqs := List.mem_range.1 hi
    constructor
    · exact Int.natCast_nonneg i
    · exact_mod_cast hiN
  · intro r hr v hv
    have hlenr : r.length = c.wlen := hlenf r hr
    rw [hrows, List.mem_map] at hr
    obtain ⟨_, _, rfl⟩ := hr
    have hrowlen : (fidxRow c).length = c.wlen := hlenr
    simp only [fidxRow] at hv hrowlen
    rw [length_arangeInt] at hrowlen
    obtain ⟨j, hjn, rfl⟩ := mem_arangeInt hv
    rw [hrowlen] at hjn
    have hjz : (j : ℤ) < (c.wlen : ℤ) := by exact_mod_cast hjn
    have hjnn : (0 : ℤ) ≤ (j : ℤ) := Int.natCast_nonneg j
    omega
  · intro hcf r hr v hv
    obtain ⟨r0, hr0, a, ha, b, hb, rfl⟩ := npAddRowBroadcast_elem hbc r hr v hv
    rw [List.mem_map] at hr0
    obtain ⟨i, _, rfl⟩ := hr0
    rw [List.mem_map] at ha
    obtain ⟨j, hj, rfl⟩ := ha
    have hjW : j < c.wlen := List.mem_range.1 hj
    rw [List.mem_map] at hb
    obtain ⟨vb, hvb, rfl⟩ := hb
    unfold FBConfig.cfIx at hvb
    rw [List.mem_map] at hvb
    obtain ⟨f, hfmem, rfl⟩ := hvb
    obtain ⟨hc1, hc2⟩ := hcf f hfmem
    have hjz : (j : ℤ) < (c.wlen : ℤ) := by exact_mod_cast hjW
    have hjnn : (0 : ℤ) ≤ (j : ℤ) := Int.natCast_nonneg j
    omega

/-!
`cfgMid` is a valid band configuration whose band sits mid-spectrum
(center 100 Hz, band `[95, 105]`, Nyquist 500 Hz), far from DC, so all
index windows fall inside the buffer. -/

def cfgMid : FBConfig := ⟨1024, 1000, 10, [100], [(95, 105)]⟩

theorem cfgMid_wlen : FBConfig.wlen cfgMid = 12 := by
  norm_num [FBConfig.wlen, FBConfig.factor, FBConfig.iph, ratTrunc, ratFloor, cfgMid]
  rfl

theorem cfgMid_halfWin : FBConfig.halfWin cfgMid = 6 := by
  norm_num [FBConfig.halfWin, FBConfig.factor, FBConfig.iph, ratTrunc, ratFloor, cfgMid]

theorem cfgMid_cfIx : FBConfig.cfIx cfgMid = [102] := by
  norm_num [FBConfig.cfIx, FBConfig.iph, ratTrunc, ratFloor, cfgMid]

theorem cfgMid_lBound : FBConfig.lBound cfgMid = 506 := by
  unfold FBConfig.lBound
  rw [cfgMid_halfWin]
  norm_num [cfgMid]

theorem cfgMid_row : fidxRow cfgMid = arangeInt 506 12 := by
  simp only [fidxRow, cfgMid_lBound, cfgMid_wlen]
  norm_num [arangeSize, ratCeil, ratFloor, FBConfig.factor, FBConfig.iph, cfgMid]
  rfl

/-- The index arrays `_get_indices_for_frequency_shifts` computes at
`cfgMid`. -/
def arrsMid : IndexArrays :=
  ⟨[arangeInt 506 12],
    [(List.range 12).map fun (j : ℕ) => (j : ℤ) + 96],
    [(List.range 12).map fun (_ : ℕ) => (0 : ℤ)]⟩

theorem cfgMid_indices : getIndicesForFrequencyShifts cfgMid = some arrsMid := by
  simp only [getIndicesForFrequencyShifts, fidxRows, idxPair, FBConfig.nfreqs,
    cfgMid_row, cfgMid_wlen, cfgMid_cfIx, cfgMid_halfWin, npAddRowBroadcast, arrsMid]
  norm_num [cfgMid, arangeInt]
  decide

theorem index_arrays_shape_and_bounds_witness :
    arrsMid.fidx.length = FBConfig.nfreqs cfgMid ∧
    arrsMid.idx1.length = FBConfig.nfreqs cfgMid ∧
    arrsMid.idx2.length = FBConfig.nfreqs cfgMid :=
  (index_arrays_shape_and_bounds cfgMid arrsMid cfgMid_indices
    (by norm_num [cfgMid]) (by norm_num [cfgMid]) (by norm_num [cfgMid])
    (by norm_num [cfgMid])).1

/-!
`cfgC9` is a two-band configuration (`bandwidth = 2` Hz, centres 100 and
200 Hz) for which construction succeeds: `W = int(2 * 0.6 * 2 * 1.024) =
int(2.4576) = 2 = nfreqs`, so the in-place broadcast is shape-valid. -/

def cfgC9 : FBConfig := ⟨1024, 1000, 2, [100, 200], [(99, 101), (199, 201)]⟩

theorem cfgC9_wlen : FBConfig.wlen cfgC9 = 2 := by
  norm_num [FBConfig.wlen, FBConfig.factor, FBConfig.iph, ratTrunc, ratFloor, cfgC9]
  rfl

theorem cfgC9_halfWin : FBConfig.halfWin cfgC9 = 1 := by
  norm_num [FBConfig.halfWin, FBConfig.factor, FBConfig.iph, ratTrunc, ratFloor, cfgC9]

theorem cfgC9_cfIx : FBConfig.cfIx cfgC9 = [102, 204] := by
  norm_num [FBConfig.cfIx, FBConfig.iph, ratTrunc, ratFloor, cfgC9]

theorem cfgC9_lBound : FBConfig.lBound cfgC9 = 511 := by
  unfold FBConfig.lBound
  rw [cfgC9_halfWin]
  norm_num [cfgC9]

theorem cfgC9_row : fidxRow cfgC9 = arangeInt 511 2 := by
  simp only [fidxRow, cfgC9_lBound, cfgC9_wlen]
  norm_num [arangeSize, ratCeil, ratFloor, FBConfig.factor, FBConfig.iph, cfgC9]
  rfl

/-- The index arrays `_get_indices_for_frequency_shifts` computes at
`cfgC9`. -/
def arrsC9 : IndexArrays :=
  ⟨[arangeInt 511 2, arangeInt 511 2],
    [[101, 204], [101, 204]],
    [[0, 0], [1, 1]]⟩

theorem cfgC9_indices : getIndicesForFrequencyShifts cfgC9 = some arrsC9 := by
  simp only [getIndicesForFrequencyShifts, fidxRows, idxPair, FBConfig.nfreqs,
    cfgC9_row, cfgC9_wlen, cfgC9_cfIx, cfgC9_halfWin, npAddRowBroadcast, arrsC9]
  norm_num [cfgC9, arangeInt]
  decide

theorem fidx_rows_identical_witness :
    arrsC9.fidx.getD 0 [] = arrsC9.fidx.getD 1 [] ∧
    (arrsC9.fidx.getD 0 []).getD 0 0 =
      (((cfgC9.binsize / 2 : ℕ) : ℤ) -
        ratTrunc (FBConfig.iph cfgC9 * cfgC9.bandwidth * FBConfig.factor)) + (0 : ℕ) :=
  fidx_rows_identical cfgC9 arrsC9 cfgC9_indices 0 1 0
    (by decide) (by decide) (by rw [cfgC9_wlen]; decide)

end Pytf
